import Mathlib

/-!
Shallow embedding of `googledrive_cloner/google_connections.py`
(class `GoogleDriveCloner`).

The remote Drive service is modelled as an association list of nodes
(`id ↦ {name, mimeType, parent}`); every remote request is recorded in a
trace.  The session state carries the point-in-time snapshot `fileInfo`
(the Python `self.file_info`), the `copied` set (`self.copied_files`),
the ordered `folders` list (`self.folders_copied`), the remote `world`,
a counter used for provider-assigned ids, and the request trace.

Effectful Python methods become functions `St → Except Err α × St`,
sequenced with `seqM`: the state component is returned even when an
exception is raised, mirroring Python's shared mutable `self` surviving
a raise.  `time.sleep` is recorded as a trace event.  Deleting or
updating a node that does not exist on the remote side raises (as the
real HTTP service does with a 404).
-/

def FOLDER_TYPE : String := "application/vnd.google-apps.folder"

def SPREADSHEET_TYPE : String := "application/vnd.google-apps.spreadsheet"

/-- The provider's decoration marker stripped by `_cleanup_files`
(`prefix = "Copy of "` in the source). -/
def deco : String := "Copy of "

structure FileInfo where
  name : String
  mimeType : String
  parent : String
deriving DecidableEq, Repr

/-- One remote request (or recorded pause / reconciliation entry). -/
inductive Op where
  | listOp (parent : String)
  | getOp (id : String)
  | copyOp (src newId : String)
  | deleteOp (id : String)
  | updateOp (id addParent removeParent name : String)
  | createOp (parent name newId : String)
  | sleepOp (secs : Nat)
  | cleanupCall (src dst : String)
deriving DecidableEq, Repr

inductive Err where
  | keyError (k : String)
  | notFound (id : String)
  | fuelOut
deriving DecidableEq, Repr

structure St where
  fileInfo : List (String × FileInfo)
  world : List (String × FileInfo)
  nextId : Nat
  copied : List String
  folders : List (String × String)
  trace : List Op
deriving DecidableEq, Repr

abbrev M (α : Type) := St → Except Err α × St

/-- Sequencing with exception propagation; the state survives a raise. -/
def seqM {α β : Type} (f : M α) (g : α → M β) : M β := fun st =>
  match f st with
  | (Except.error e, st1) => (Except.error e, st1)
  | (Except.ok a, st1) => g a st1

def pureM {α : Type} (a : α) : M α := fun st => (Except.ok a, st)

def throwM {α : Type} (e : Err) : M α := fun st => (Except.error e, st)

def readSt : M St := fun st => (Except.ok st, st)

/-! ### Association-list and string helpers -/

def lookupW (w : List (String × FileInfo)) (k : String) : Option FileInfo :=
  (w.find? (fun e => e.1 == k)).map (fun e => e.2)

def childrenW (w : List (String × FileInfo)) (p : String) : List (String × FileInfo) :=
  w.filter (fun e => e.2.parent == p)

def deleteW (w : List (String × FileInfo)) (k : String) : List (String × FileInfo) :=
  w.filter (fun e => !(e.1 == k))

def updateW (w : List (String × FileInfo)) (k p n : String) : List (String × FileInfo) :=
  w.map (fun e => if e.1 == k then (e.1, FileInfo.mk n e.2.mimeType p) else e)

def idsW (w : List (String × FileInfo)) : List String := w.map Prod.fst

/-- Python `set.add` on the copied-files store. -/
def addCopiedL (l : List String) (x : String) : List String :=
  if x ∈ l then l else l ++ [x]

/-- `str.startswith` (character-list based, as Python slices by characters). -/
def strStarts (s pre : String) : Bool := s.data.take pre.data.length == pre.data

/-- `s[n:]` for a character count `n`. -/
def strDropN (s : String) (n : Nat) : String := String.mk (s.data.drop n)

/-- `clean_name` computation of `_cleanup_files`: strip the decoration
marker when present (`clean_name[len(prefix):]`). -/
def cleanOf (n : String) : String :=
  if strStarts n deco then strDropN n deco.data.length else n

/-- Python truthiness of an optional string argument: falsy when absent
or empty (`not (current_parent_id and name and mime_type)`). -/
def truthy : Option String → Bool
  | none => false
  | some s => !s.data.isEmpty

/-- Name a moved stray ends up with: its clean name via the truthy path,
its current remote name when `move_file` falls back to a metadata fetch. -/
def mvName (zi : FileInfo) : String :=
  if cleanOf zi.name = "" then zi.name else cleanOf zi.name

/-- `MIME_TYPE_ORDER = {FOLDER_TYPE: 1, SPREADSHEET_TYPE: 0}` with
`.get(mimeType, -1)`. -/
def prio (mt : String) : Int :=
  if mt == FOLDER_TYPE then 1 else if mt == SPREADSHEET_TYPE then 0 else -1

/-- The `{v["name"]: k for k, v in files_in_destination.items()}` dict:
later entries overwrite earlier ones, so lookups are done on the
reversed pair list. -/
def buildNameMap (l : List (String × FileInfo)) : List (String × String) :=
  (l.map (fun e => (e.2.name, e.1))).reverse

def mLookup (m : List (String × String)) (k : String) : Option String :=
  (m.find? (fun e => e.1 == k)).map (fun e => e.2)

def callOf : Op → Option (String × String)
  | Op.cleanupCall p d => some (p, d)
  | _ => none

def isDeleteOp : Op → Bool
  | Op.deleteOp _ => true
  | _ => false

/-- Provider-assigned fresh ids (an arbitrary injective scheme). -/
def genId (n : Nat) : String := "g" ++ String.mk (List.replicate n 'x')

/-! ### Remote service primitives -/

def sleepM (n : Nat) : M Unit := fun st =>
  (Except.ok (), { st with trace := st.trace ++ [Op.sleepOp n] })

def markCleanup (p d : String) : M Unit := fun st =>
  (Except.ok (), { st with trace := st.trace ++ [Op.cleanupCall p d] })

def addCopiedM (x : String) : M Unit := fun st =>
  (Except.ok (), { st with copied := addCopiedL st.copied x })

def addFolderM (pr : String × String) : M Unit := fun st =>
  (Except.ok (), { st with folders := st.folders ++ [pr] })

def serviceList (p : String) : M (List (String × FileInfo)) := fun st =>
  (Except.ok (childrenW st.world p), { st with trace := st.trace ++ [Op.listOp p] })

def serviceGet (i : String) : M FileInfo := fun st =>
  let st' := { st with trace := st.trace ++ [Op.getOp i] }
  match lookupW st.world i with
  | some info => (Except.ok info, st')
  | none => (Except.error (Err.notFound i), st')

def serviceDelete (i : String) : M Unit := fun st =>
  let st' := { st with trace := st.trace ++ [Op.deleteOp i] }
  match lookupW st.world i with
  | some _ => (Except.ok (), { st' with world := deleteW st.world i })
  | none => (Except.error (Err.notFound i), st')

def serviceUpdate (i addP removeP n : String) : M String := fun st =>
  let st' := { st with trace := st.trace ++ [Op.updateOp i addP removeP n] }
  match lookupW st.world i with
  | some _ => (Except.ok i, { st' with world := updateW st.world i addP n })
  | none => (Except.error (Err.notFound i), st')

/-- `files().create(...)`: provider assigns a fresh id. -/
def serviceCreate (p n : String) : M String := fun st =>
  let i := genId st.nextId
  (Except.ok i,
    { st with
      nextId := st.nextId + 1
      world := st.world ++ [(i, FileInfo.mk n FOLDER_TYPE p)]
      trace := st.trace ++ [Op.createOp p n i] })

/-- `files().copy(...)`: clone under the same parent with a fresh id. -/
def serviceClone (src : String) : M String := fun st =>
  let i := genId st.nextId
  let st' := { st with trace := st.trace ++ [Op.copyOp src i] }
  match lookupW st.world src with
  | some info =>
      (Except.ok i, { st' with nextId := st.nextId + 1, world := st.world ++ [(i, info)] })
  | none => (Except.error (Err.notFound src), st')

/-! ### `GoogleDriveCloner` methods -/

/-- `move_file`: fetch metadata first unless all three optional
arguments are (truthily) supplied, then issue one update. -/
def moveFile (i dest : String) (cp n mt : Option String) : M String :=
  if truthy cp && truthy n && truthy mt then
    serviceUpdate i dest (cp.getD "") (n.getD "")
  else
    seqM (serviceGet i) fun info => serviceUpdate i dest info.parent info.name

/-- Body of the `_cleanup_files` loop for one entry of the fresh source
listing, given the destination name→id map. -/
def stepEntry (p d : String) (m : List (String × String)) (e : String × FileInfo) :
    M Unit :=
  seqM readSt fun s0 =>
  match lookupW s0.fileInfo e.1 with
  | some _ => pureM ()
  | none =>
    let clean := cleanOf e.2.name
    match mLookup m clean with
    | some idDel =>
      if idDel == e.1 then pureM ()
      else
        seqM (serviceDelete idDel) fun _ =>
        seqM (moveFile e.1 d (some p) (some clean) (some e.2.mimeType)) fun _ =>
        pureM ()
    | none =>
      seqM (moveFile e.1 d (some p) (some clean) (some e.2.mimeType)) fun _ =>
      pureM ()

def cleanupLoop (p d : String) (m : List (String × String)) :
    List (String × FileInfo) → M Unit
  | [] => pureM ()
  | e :: rest => seqM (stepEntry p d m e) fun _ => cleanupLoop p d m rest

/-- Lines 141-178 of `_cleanup_files`, given the two listing results. -/
def cleanupFromListings (p d : String) (cur destL : List (String × FileInfo)) : M Unit :=
  cleanupLoop p d (buildNameMap destL) cur

/-- `_cleanup_files(parent_id, destination_parent_id)`. -/
def cleanupFiles (p d : String) : M Unit :=
  seqM (markCleanup p d) fun _ =>
  seqM (serviceList p) fun cur =>
  seqM (serviceList d) fun destL =>
  cleanupFromListings p d cur destL

/-- `copy_file(file_id, destination_parent_id)`. -/
def copyFile (i dest : String) : M String :=
  seqM (serviceClone i) fun c =>
  seqM readSt fun s0 =>
  match lookupW s0.fileInfo i with
  | none => throwM (Err.keyError i)
  | some cur =>
    seqM (moveFile c dest (some cur.parent) (some cur.name) (some cur.mimeType)) fun mv =>
    seqM (if cur.mimeType == SPREADSHEET_TYPE then sleepM 30 else pureM ()) fun _ =>
    seqM (addCopiedM i) fun _ =>
    seqM (cleanupFiles cur.parent dest) fun _ =>
    pureM mv

/-- Child ordering of `copy_item`: group the snapshot children of
`item` by mime-type priority, then flatten the groups in descending
priority order (`list(sorted(child_files_to_copy))[::-1]`). -/
def orderedChildren (fi : List (String × FileInfo)) (item : String) : List String :=
  let children := fi.filter (fun e => e.2.parent == item)
  let keys := (children.map (fun e => prio e.2.mimeType)).dedup
  let sortedDesc := (keys.insertionSort (fun a b => a ≤ b)).reverse
  sortedDesc.flatMap
    (fun pr => (children.filter (fun e => prio e.2.mimeType == pr)).map (fun e => e.1))

def copyListAux (f : String → M (Option String)) : List String → M Unit
  | [] => pureM ()
  | i :: rest => seqM (f i) fun _ => copyListAux f rest

/-- `copy_item(item_id, destination_parent_id, new_name)`, with a fuel
bound on the recursion depth. -/
def copyItem : Nat → String → String → Option String → M (Option String)
  | 0, _, _, _ => throwM Err.fuelOut
  | fuel + 1, item, dest, newName =>
    seqM (sleepM 1) fun _ =>
    seqM readSt fun s0 =>
    match lookupW s0.fileInfo item with
    | none => throwM (Err.keyError item)
    | some info =>
      if item ∈ s0.copied then pureM none
      else if info.mimeType == FOLDER_TYPE then
        seqM (serviceCreate dest (newName.getD info.name)) fun created =>
        seqM (copyListAux (fun i => copyItem fuel i created none)
              (orderedChildren s0.fileInfo item)) fun _ =>
        seqM (addCopiedM item) fun _ =>
        seqM (addFolderM (item, created)) fun _ =>
        pureM (some created)
      else
        seqM (copyFile item dest) fun r => pureM (some r)

def runCleanupPairs : List (String × String) → M Unit
  | [] => pureM ()
  | (p, d) :: rest => seqM (cleanupFiles p d) fun _ => runCleanupPairs rest

/-- `run_cleanup`: one `_cleanup_files` per recorded folder pair, in
recorded order. -/
def runCleanup : M Unit := fun st => runCleanupPairs st.folders st

/-- `run(base_folder_id, destination_parent_folder_id, new_name)`:
attempt the traversal, capture any exception, sleep the global settle
interval, run the cleanup sweep, then re-raise or return. -/
def run (fuel : Nat) (root dest : String) (nm : Option String) : M (Option String) :=
  fun st =>
  let res1 := copyItem fuel root dest nm st
  let st2 := { res1.2 with trace := res1.2.trace ++ [Op.sleepOp 45] }
  let res2 := runCleanup st2
  match res2.1 with
  | Except.error e => (Except.error e, res2.2)
  | Except.ok _ =>
    match res1.1 with
    | Except.error e => (Except.error e, res2.2)
    | Except.ok v => (Except.ok v, res2.2)

/-! ### Paged-listing model (`_get_all_file_info` / `_get_file_info_one_page`)

The provider's paged `list` endpoint is modelled as a list of pages;
the next-page token is the index of the next page, absent on the last
page. -/

def pageAt (P : List (List (String × FileInfo))) (i : Nat) : List (String × FileInfo) :=
  P.getD i []

/-- `_get_file_info_one_page(page_token)`: one page plus the follow-up
token (if any). -/
def onePage (P : List (List (String × FileInfo))) (tok : Option Nat) :
    List (String × FileInfo) × Option Nat :=
  let i := tok.getD 0
  (pageAt P i, if i + 1 < P.length then some (i + 1) else none)

/-- Dict-merge of one page entry into the accumulated id-keyed map. -/
def upsert (acc : List (String × FileInfo)) (e : String × FileInfo) :
    List (String × FileInfo) :=
  if (lookupW acc e.1).isSome then
    acc.map (fun x => if x.1 == e.1 then e else x)
  else acc ++ [e]

def mergePage (acc : List (String × FileInfo)) (page : List (String × FileInfo)) :
    List (String × FileInfo) :=
  page.foldl upsert acc

def getAllAux (P : List (List (String × FileInfo))) :
    Nat → Nat → List (String × FileInfo) → List (String × FileInfo)
  | 0, _, acc => acc
  | f + 1, i, acc =>
    let acc2 := mergePage acc (pageAt P i)
    if i + 1 < P.length then getAllAux P f (i + 1) acc2 else acc2

/-- `_get_all_file_info`: keep requesting pages while a next-page token
comes back, merging every page into one id-keyed map. -/
def getAllFileInfo (P : List (List (String × FileInfo))) : List (String × FileInfo) :=
  getAllAux P (P.length + 1) 0 []

/-- The fresh per-parent listing taken inside `_cleanup_files`
(`files_in_current, _ = self._get_file_info_one_page(query=...)`):
a single page, next-page token discarded. -/
def cleanupPageListing (P : List (List (String × FileInfo))) : List (String × FileInfo) :=
  (onePage P none).1

/-! ### Small evaluation lemmas -/

theorem genId_zero : genId 0 = "g" := rfl

theorem genId_one : genId 1 = "gx" := rfl

theorem genId_two : genId 2 = "gxx" := rfl

theorem genId_three : genId 3 = "gxxx" := rfl

theorem genId_four : genId 4 = "gxxxx" := rfl

theorem seqM_ok {α β : Type} {f : M α} {g : α → M β} {st st1 : St} {a : α}
    (h : f st = (Except.ok a, st1)) : seqM f g st = g a st1 := by
  simp [seqM, h]

theorem seqM_err {α β : Type} {f : M α} {g : α → M β} {st st1 : St} {e : Err}
    (h : f st = (Except.error e, st1)) : seqM f g st = (Except.error e, st1) := by
  simp [seqM, h]

theorem sleepM_eval (n : Nat) (st : St) :
    sleepM n st = (Except.ok (), { st with trace := st.trace ++ [Op.sleepOp n] }) := rfl

theorem readSt_eval (st : St) : readSt st = (Except.ok st, st) := rfl

theorem pureM_eval {α : Type} (a : α) (st : St) : pureM a st = (Except.ok a, st) := rfl

theorem markCleanup_eval (p d : String) (st : St) :
    markCleanup p d st =
      (Except.ok (), { st with trace := st.trace ++ [Op.cleanupCall p d] }) := rfl

theorem addCopiedM_eval (x : String) (st : St) :
    addCopiedM x st = (Except.ok (), { st with copied := addCopiedL st.copied x }) := rfl

theorem addFolderM_eval (pr : String × String) (st : St) :
    addFolderM pr st = (Except.ok (), { st with folders := st.folders ++ [pr] }) := rfl

theorem serviceList_eval (p : String) (st : St) :
    serviceList p st =
      (Except.ok (childrenW st.world p),
        { st with trace := st.trace ++ [Op.listOp p] }) := rfl

theorem serviceCreate_eval (p n : String) (st : St) :
    serviceCreate p n st =
      (Except.ok (genId st.nextId),
        { st with
          nextId := st.nextId + 1
          world := st.world ++ [(genId st.nextId, FileInfo.mk n FOLDER_TYPE p)]
          trace := st.trace ++ [Op.createOp p n (genId st.nextId)] }) := rfl

theorem mem_addCopiedL (l : List String) (x : String) : x ∈ addCopiedL l x := by
  by_cases h : x ∈ l <;> simp [addCopiedL, h]

theorem mem_addCopiedL_of_mem {l : List String} {y : String} (x : String)
    (h : y ∈ l) : y ∈ addCopiedL l x := by
  by_cases hx : x ∈ l <;> simp [addCopiedL, hx, h]

/-! ### Association-list lemmas -/

theorem lookupW_nil (k : String) : lookupW [] k = none := rfl

theorem lookupW_cons (a : String × FileInfo) (w : List (String × FileInfo)) (k : String) :
    lookupW (a :: w) k = if a.1 = k then some a.2 else lookupW w k := by
  by_cases h : a.1 = k
  · rw [if_pos h]
    simp only [lookupW]
    rw [List.find?_cons_of_pos _ (by simp [h])]
    rfl
  · rw [if_neg h]
    simp only [lookupW]
    rw [List.find?_cons_of_neg _ (by simp [h])]

theorem lookupW_eq_some_mem {w : List (String × FileInfo)} {k : String} {i : FileInfo}
    (h : lookupW w k = some i) : (k, i) ∈ w := by
  induction w with
  | nil => simp [lookupW] at h
  | cons a t ih =>
    rw [lookupW_cons] at h
    by_cases ha : a.1 = k
    · rw [if_pos ha] at h
      have : a = (k, i) := by
        cases a
        simp at ha h
        simp [ha, h]
      rw [← this]
      exact List.mem_cons_self a t
    · rw [if_neg ha] at h
      exact List.mem_cons_of_mem _ (ih h)

theorem lookupW_isSome_mem {w : List (String × FileInfo)} {k : String}
    (h : lookupW w k ≠ none) : k ∈ idsW w := by
  rcases ho : lookupW w k with _ | i
  · exact absurd ho h
  · exact List.mem_map.2 ⟨(k, i), lookupW_eq_some_mem ho, rfl⟩

theorem lookupW_none_of_not_mem {w : List (String × FileInfo)} {k : String}
    (h : k ∉ idsW w) : lookupW w k = none := by
  induction w with
  | nil => rfl
  | cons a t ih =>
    rw [lookupW_cons]
    have h1 : ¬a.1 = k := by
      intro hh
      exact h (by simp [idsW, hh])
    rw [if_neg h1]
    exact ih (fun hk => h (by simp only [idsW, List.map] at hk ⊢; exact List.mem_cons_of_mem _ hk))

theorem mem_lookupW_nodup {w : List (String × FileInfo)} {k : String} {i : FileInfo}
    (hnd : (idsW w).Nodup) (h : (k, i) ∈ w) : lookupW w k = some i := by
  induction w with
  | nil => simp at h
  | cons a t ih =>
    rw [lookupW_cons]
    simp only [idsW, List.map, List.nodup_cons] at hnd
    rcases List.mem_cons.1 h with h1 | h1
    · rw [if_pos (by rw [← h1]), ← h1]
    · have hk : k ∈ List.map Prod.fst t := List.mem_map.2 ⟨(k, i), h1, rfl⟩
      have hne : ¬a.1 = k := fun hak => hnd.1 (by rw [hak]; exact hk)
      rw [if_neg hne]
      exact ih hnd.2 h1

theorem lookupW_deleteW (w : List (String × FileInfo)) (i k : String) :
    lookupW (deleteW w i) k = if k = i then none else lookupW w k := by
  induction w with
  | nil => by_cases h : k = i <;> simp [deleteW, lookupW, h]
  | cons a t ih =>
    by_cases hai : a.1 = i
    · simp only [deleteW, List.filter_cons] at ih ⊢
      rw [show (!(a.1 == i)) = false by simp [hai]]
      simp only [Bool.false_eq_true, if_false]
      rw [ih]
      by_cases hk : k = i
      · rw [if_pos hk, if_pos hk]
      · rw [if_neg hk, if_neg hk, lookupW_cons,
          if_neg (by rw [hai]; exact fun hh => hk hh.symm)]
    · simp only [deleteW, List.filter_cons] at ih ⊢
      rw [show (!(a.1 == i)) = true by simp [hai]]
      simp only [if_true]
      rw [lookupW_cons, lookupW_cons, ih]
      by_cases hak : a.1 = k
      · rw [if_pos hak, if_pos hak, if_neg (by rw [← hak]; exact hai)]
      · rw [if_neg hak, if_neg hak]

theorem lookupW_updateW (w : List (String × FileInfo)) (z p n k : String) :
    lookupW (updateW w z p n) k =
      if k = z then (lookupW w k).map (fun x => FileInfo.mk n x.mimeType p)
      else lookupW w k := by
  induction w with
  | nil => by_cases h : k = z <;> simp [updateW, lookupW, h]
  | cons a t ih =>
    simp only [updateW, List.map_cons] at ih ⊢
    by_cases haz : a.1 = z
    · rw [show (a.1 == z) = true by simp [haz]]
      simp only [if_true]
      rw [lookupW_cons, lookupW_cons, ih]
      by_cases hk : k = z
      · have hak : a.1 = k := by rw [haz, hk]
        rw [if_pos hak, if_pos hak, if_pos hk]
        simp
      · have hak : ¬a.1 = k := by rw [haz]; exact fun hh => hk hh.symm
        rw [if_neg hak, if_neg hak, if_neg hk]
    · rw [show (a.1 == z) = false by simp [haz]]
      simp only [Bool.false_eq_true, if_false]
      rw [lookupW_cons, lookupW_cons, ih]
      by_cases hak : a.1 = k
      · rw [if_pos hak, if_pos hak, if_neg (by rw [← hak]; exact fun hh => haz hh)]
      · rw [if_neg hak, if_neg hak]

theorem idsW_updateW (w : List (String × FileInfo)) (z p n : String) :
    idsW (updateW w z p n) = idsW w := by
  simp only [idsW, updateW, List.map_map]
  apply List.map_congr_left
  intro a _
  by_cases h : a.1 = z <;> simp [h]

theorem idsW_deleteW_sublist (w : List (String × FileInfo)) (i : String) :
    (idsW (deleteW w i)).Sublist (idsW w) :=
  List.Sublist.map _ (List.filter_sublist w)

theorem nodup_deleteW {w : List (String × FileInfo)} (i : String)
    (h : (idsW w).Nodup) : (idsW (deleteW w i)).Nodup :=
  (idsW_deleteW_sublist w i).nodup h

theorem nodup_updateW {w : List (String × FileInfo)} (z p n : String)
    (h : (idsW w).Nodup) : (idsW (updateW w z p n)).Nodup := by
  rw [idsW_updateW]; exact h

theorem childrenW_mem {w : List (String × FileInfo)} {p : String} {e : String × FileInfo} :
    e ∈ childrenW w p ↔ e ∈ w ∧ e.2.parent = p := by
  simp [childrenW, List.mem_filter]

theorem mimeAll_updateW {w : List (String × FileInfo)} (z p n : String)
    (h : ∀ e ∈ w, (e : String × FileInfo).2.mimeType ≠ "") :
    ∀ e ∈ updateW w z p n, (e : String × FileInfo).2.mimeType ≠ "" := by
  intro e he
  simp only [updateW, List.mem_map] at he
  rcases he with ⟨a, ha, rfl⟩
  by_cases hz : a.1 = z
  · simp only [show (a.1 == z) = true by simp [hz], if_true]
    exact h a ha
  · simp only [show (a.1 == z) = false by simp [hz], Bool.false_eq_true, if_false]
    exact h a ha

theorem mimeAll_deleteW {w : List (String × FileInfo)} (i : String)
    (h : ∀ e ∈ w, (e : String × FileInfo).2.mimeType ≠ "") :
    ∀ e ∈ deleteW w i, (e : String × FileInfo).2.mimeType ≠ "" := by
  intro e he
  exact h e (List.mem_of_mem_filter he)

/-! ### Destination name-map lemmas -/

theorem mLookup_cons (a : String × String) (m : List (String × String)) (k : String) :
    mLookup (a :: m) k = if a.1 = k then some a.2 else mLookup m k := by
  by_cases h : a.1 = k
  · rw [if_pos h]
    simp only [mLookup]
    rw [List.find?_cons_of_pos _ (by simp [h])]
    rfl
  · rw [if_neg h]
    simp only [mLookup]
    rw [List.find?_cons_of_neg _ (by simp [h])]

theorem mLookup_mem {m : List (String × String)} {k v : String}
    (h : mLookup m k = some v) : (k, v) ∈ m := by
  induction m with
  | nil => simp [mLookup] at h
  | cons a t ih =>
    rw [mLookup_cons] at h
    by_cases ha : a.1 = k
    · rw [if_pos ha] at h
      have : a = (k, v) := by
        cases a
        simp at ha h
        simp [ha, h]
      rw [← this]
      exact List.mem_cons_self a t
    · rw [if_neg ha] at h
      exact List.mem_cons_of_mem _ (ih h)

theorem buildNameMap_concat (L : List (String × FileInfo)) (a : String × FileInfo) :
    buildNameMap (L ++ [a]) = (a.2.name, a.1) :: buildNameMap L := by
  simp [buildNameMap]

/-- The dict comprehension keeps, for each name, the id of the
last-listed destination entry carrying that name. -/
theorem mLookup_buildNameMap (L : List (String × FileInfo)) (n : String) :
    mLookup (buildNameMap L) n =
      ((L.filter (fun e => e.2.name == n)).getLast?).map Prod.fst := by
  induction L using List.reverseRecOn with
  | nil => rfl
  | append_singleton L a ih =>
    rw [buildNameMap_concat, mLookup_cons, List.filter_append]
    by_cases h : a.2.name = n
    · rw [if_pos h]
      rw [show List.filter (fun e => e.2.name == n) [a] = [a] by simp [h]]
      rw [List.getLast?_concat]
      rfl
    · rw [if_neg h]
      rw [show List.filter (fun e => e.2.name == n) [a] = [] by simp [h]]
      rw [List.append_nil]
      exact ih

theorem mLookup_buildNameMap_singleton {L : List (String × FileInfo)}
    {X o : String} {oi : FileInfo}
    (h : L.filter (fun e => e.2.name == X) = [(o, oi)]) :
    mLookup (buildNameMap L) X = some o := by
  rw [mLookup_buildNameMap, h]
  rfl

theorem mLookup_buildNameMap_mem {L : List (String × FileInfo)} {s v : String}
    (h : mLookup (buildNameMap L) s = some v) : ∃ i, (v, i) ∈ L ∧ i.name = s := by
  have hm := mLookup_mem h
  simp only [buildNameMap, List.mem_reverse, List.mem_map] at hm
  rcases hm with ⟨e, he, heq⟩
  refine ⟨e.2, ?_, ?_⟩
  · have : e.1 = v := congrArg Prod.snd heq
    rw [← this]
    exact he
  · exact congrArg Prod.fst heq

/-! ### The session-state invariant bundle -/

/-- Across one operation: the snapshot `fileInfo` is unchanged, the
copied set only grows, the folder mapping is append-only and every
appended source id was a folder in the snapshot, and the trace is
append-only. -/
def Stable {α : Type} (op : M α) : Prop :=
  ∀ st : St,
    (op st).2.fileInfo = st.fileInfo ∧
    (∀ x, x ∈ st.copied → x ∈ (op st).2.copied) ∧
    (∃ dl, (op st).2.folders = st.folders ++ dl ∧
      ∀ pr ∈ dl, ∃ i, lookupW st.fileInfo (pr : String × String).1 = some i ∧
        i.mimeType = FOLDER_TYPE) ∧
    (∃ tr, (op st).2.trace = st.trace ++ tr)

theorem stable_elim {α : Type} {op : M α} (h : Stable op) {st : St}
    {r : Except Err α} {st' : St} (he : op st = (r, st')) :
    st'.fileInfo = st.fileInfo ∧
    (∀ x, x ∈ st.copied → x ∈ st'.copied) ∧
    (∃ dl, st'.folders = st.folders ++ dl ∧
      ∀ pr ∈ dl, ∃ i, lookupW st.fileInfo (pr : String × String).1 = some i ∧
        i.mimeType = FOLDER_TYPE) ∧
    (∃ tr, st'.trace = st.trace ++ tr) := by
  have hh := h st
  rw [he] at hh
  exact hh

theorem stable_seqM {α β : Type} {f : M α} {g : α → M β}
    (hf : Stable f) (hg : ∀ a, Stable (g a)) : Stable (seqM f g) := by
  intro st
  rcases he : f st with ⟨r, st1⟩
  have h1 := stable_elim hf he
  cases r with
  | error e =>
    rw [seqM_err he]
    exact h1
  | ok a =>
    rw [seqM_ok he]
    rcases he2 : g a st1 with ⟨r2, st2⟩
    have h2 := stable_elim (hg a) he2
    refine ⟨by rw [h2.1, h1.1], fun x hx => h2.2.1 x (h1.2.1 x hx), ?_, ?_⟩
    · rcases h1.2.2.1 with ⟨dl1, hdl1, hc1⟩
      rcases h2.2.2.1 with ⟨dl2, hdl2, hc2⟩
      refine ⟨dl1 ++ dl2, by rw [hdl2, hdl1, List.append_assoc], ?_⟩
      intro pr hpr
      rcases List.mem_append.1 hpr with hp | hp
      · exact hc1 pr hp
      · rcases hc2 pr hp with ⟨i, hi, hm⟩
        rw [h1.1] at hi
        exact ⟨i, hi, hm⟩
    · rcases h1.2.2.2 with ⟨t1, ht1⟩
      rcases h2.2.2.2 with ⟨t2, ht2⟩
      exact ⟨t1 ++ t2, by rw [ht2, ht1, List.append_assoc]⟩

theorem stable_pureM {α : Type} (a : α) : Stable (pureM a) := by
  intro st
  exact ⟨rfl, fun x hx => hx, ⟨[], by simp [pureM], by simp⟩, ⟨[], by simp [pureM]⟩⟩

theorem stable_throwM {α : Type} (e : Err) : Stable (throwM e : M α) := by
  intro st
  exact ⟨rfl, fun x hx => hx, ⟨[], by simp [throwM], by simp⟩, ⟨[], by simp [throwM]⟩⟩

theorem stable_readSt : Stable readSt := by
  intro st
  exact ⟨rfl, fun x hx => hx, ⟨[], by simp [readSt], by simp⟩, ⟨[], by simp [readSt]⟩⟩

theorem stable_sleepM (n : Nat) : Stable (sleepM n) := by
  intro st
  exact ⟨rfl, fun x hx => hx, ⟨[], by simp [sleepM], by simp⟩, ⟨[Op.sleepOp n], rfl⟩⟩

theorem stable_markCleanup (p d : String) : Stable (markCleanup p d) := by
  intro st
  exact ⟨rfl, fun x hx => hx, ⟨[], by simp [markCleanup], by simp⟩, ⟨[Op.cleanupCall p d], rfl⟩⟩

theorem stable_addCopiedM (x : String) : Stable (addCopiedM x) := by
  intro st
  exact ⟨rfl, fun y hy => mem_addCopiedL_of_mem x hy, ⟨[], by simp [addCopiedM], by simp⟩,
    ⟨[], by simp [addCopiedM]⟩⟩

theorem stable_serviceList (p : String) : Stable (serviceList p) := by
  intro st
  exact ⟨rfl, fun x hx => hx, ⟨[], by simp [serviceList], by simp⟩, ⟨[Op.listOp p], rfl⟩⟩

theorem stable_serviceGet (i : String) : Stable (serviceGet i) := by
  intro st
  simp only [serviceGet]
  rcases lookupW st.world i with _ | info <;>
    exact ⟨rfl, fun x hx => hx, ⟨[], by simp [serviceGet], by simp⟩, ⟨[Op.getOp i], rfl⟩⟩

theorem stable_serviceDelete (i : String) : Stable (serviceDelete i) := by
  intro st
  simp only [serviceDelete]
  rcases lookupW st.world i with _ | info <;>
    exact ⟨rfl, fun x hx => hx, ⟨[], by simp [serviceDelete], by simp⟩, ⟨[Op.deleteOp i], rfl⟩⟩

theorem stable_serviceUpdate (i a rm n : String) : Stable (serviceUpdate i a rm n) := by
  intro st
  simp only [serviceUpdate]
  rcases lookupW st.world i with _ | info <;>
    exact ⟨rfl, fun x hx => hx, ⟨[], by simp [serviceUpdate], by simp⟩, ⟨[Op.updateOp i a rm n], rfl⟩⟩

theorem stable_serviceCreate (p n : String) : Stable (serviceCreate p n) := by
  intro st
  exact ⟨rfl, fun x hx => hx, ⟨[], by simp [serviceCreate], by simp⟩,
    ⟨[Op.createOp p n (genId st.nextId)], rfl⟩⟩

theorem stable_serviceClone (src : String) : Stable (serviceClone src) := by
  intro st
  simp only [serviceClone]
  rcases lookupW st.world src with _ | info <;>
    exact ⟨rfl, fun x hx => hx, ⟨[], by simp [serviceClone], by simp⟩, ⟨[Op.copyOp src (genId st.nextId)], rfl⟩⟩

theorem stable_moveFile (i dest : String) (cp n mt : Option String) :
    Stable (moveFile i dest cp n mt) := by
  rw [moveFile]
  split
  · exact stable_serviceUpdate _ _ _ _
  · exact stable_seqM (stable_serviceGet i) (fun info => stable_serviceUpdate _ _ _ _)

theorem stable_stepEntry (p d : String) (m : List (String × String))
    (e : String × FileInfo) : Stable (stepEntry p d m e) := by
  rw [stepEntry]
  apply stable_seqM stable_readSt
  intro s0
  rcases lookupW s0.fileInfo e.1 with _ | i
  · simp only
    rcases mLookup m (cleanOf e.2.name) with _ | idDel
    · simp only
      exact stable_seqM (stable_moveFile _ _ _ _ _) (fun _ => stable_pureM ())
    · simp only
      split
      · exact stable_pureM ()
      · exact stable_seqM (stable_serviceDelete _)
          (fun _ => stable_seqM (stable_moveFile _ _ _ _ _) (fun _ => stable_pureM ()))
  · exact stable_pureM ()

theorem stable_cleanupLoop (p d : String) (m : List (String × String))
    (L : List (String × FileInfo)) : Stable (cleanupLoop p d m L) := by
  induction L with
  | nil => exact stable_pureM ()
  | cons e rest ih => exact stable_seqM (stable_stepEntry p d m e) (fun _ => ih)

theorem stable_cleanupFromListings (p d : String)
    (cur destL : List (String × FileInfo)) : Stable (cleanupFromListings p d cur destL) :=
  stable_cleanupLoop p d _ cur

theorem stable_cleanupFiles (p d : String) : Stable (cleanupFiles p d) := by
  rw [cleanupFiles]
  exact stable_seqM (stable_markCleanup p d)
    (fun _ => stable_seqM (stable_serviceList p)
      (fun cur => stable_seqM (stable_serviceList d)
        (fun destL => stable_cleanupFromListings p d cur destL)))

theorem stable_copyFile (i dest : String) : Stable (copyFile i dest) := by
  rw [copyFile]
  apply stable_seqM (stable_serviceClone i)
  intro c
  apply stable_seqM stable_readSt
  intro s0
  rcases lookupW s0.fileInfo i with _ | cur
  · exact stable_throwM _
  · simp only
    apply stable_seqM (stable_moveFile _ _ _ _ _)
    intro mv
    apply stable_seqM
    · split
      · exact stable_sleepM 30
      · exact stable_pureM ()
    · intro u
      exact stable_seqM (stable_addCopiedM i)
        (fun _ => stable_seqM (stable_cleanupFiles _ _) (fun _ => stable_pureM mv))

theorem stable_copyListAux (f : String → M (Option String))
    (hf : ∀ i, Stable (f i)) (l : List String) : Stable (copyListAux f l) := by
  induction l with
  | nil => exact stable_pureM ()
  | cons i rest ih => exact stable_seqM (hf i) (fun _ => ih)

/-- Weak invariant bundle (no condition on appended folder pairs). -/
def Tame {α : Type} (op : M α) : Prop :=
  ∀ st : St,
    (op st).2.fileInfo = st.fileInfo ∧
    (∀ x, x ∈ st.copied → x ∈ (op st).2.copied) ∧
    (∃ dl, (op st).2.folders = st.folders ++ dl) ∧
    (∃ tr, (op st).2.trace = st.trace ++ tr)

theorem tame_of_stable {α : Type} {op : M α} (h : Stable op) : Tame op := by
  intro st
  rcases h st with ⟨h1, h2, ⟨dl, hdl, _⟩, h4⟩
  exact ⟨h1, h2, ⟨dl, hdl⟩, h4⟩

theorem tame_elim {α : Type} {op : M α} (h : Tame op) {st : St}
    {r : Except Err α} {st' : St} (he : op st = (r, st')) :
    st'.fileInfo = st.fileInfo ∧
    (∀ x, x ∈ st.copied → x ∈ st'.copied) ∧
    (∃ dl, st'.folders = st.folders ++ dl) ∧
    (∃ tr, st'.trace = st.trace ++ tr) := by
  have hh := h st
  rw [he] at hh
  exact hh

theorem tame_seqM {α β : Type} {f : M α} {g : α → M β}
    (hf : Tame f) (hg : ∀ a, Tame (g a)) : Tame (seqM f g) := by
  intro st
  rcases he : f st with ⟨r, st1⟩
  have h1 := tame_elim hf he
  cases r with
  | error e =>
    rw [seqM_err he]
    exact h1
  | ok a =>
    rw [seqM_ok he]
    rcases he2 : g a st1 with ⟨r2, st2⟩
    have h2 := tame_elim (hg a) he2
    refine ⟨by rw [h2.1, h1.1], fun x hx => h2.2.1 x (h1.2.1 x hx), ?_, ?_⟩
    · rcases h1.2.2.1 with ⟨dl1, hdl1⟩
      rcases h2.2.2.1 with ⟨dl2, hdl2⟩
      exact ⟨dl1 ++ dl2, by rw [hdl2, hdl1, List.append_assoc]⟩
    · rcases h1.2.2.2 with ⟨t1, ht1⟩
      rcases h2.2.2.2 with ⟨t2, ht2⟩
      exact ⟨t1 ++ t2, by rw [ht2, ht1, List.append_assoc]⟩

theorem tame_addFolderM (pr : String × String) : Tame (addFolderM pr) := by
  intro st
  exact ⟨rfl, fun x hx => hx, ⟨[pr], rfl⟩, ⟨[], by simp [addFolderM]⟩⟩

theorem tame_copyListAux (f : String → M (Option String))
    (hf : ∀ i, Tame (f i)) (l : List String) : Tame (copyListAux f l) := by
  induction l with
  | nil => exact tame_of_stable (stable_pureM ())
  | cons i rest ih => exact tame_seqM (hf i) (fun _ => ih)

theorem tame_copyItem : ∀ (fuel : Nat) (item dest : String) (nm : Option String),
    Tame (copyItem fuel item dest nm) := by
  intro fuel
  induction fuel with
  | zero => intro item dest nm; exact tame_of_stable (stable_throwM _)
  | succ fuel ih =>
    intro item dest nm
    rw [copyItem]
    apply tame_seqM (tame_of_stable (stable_sleepM 1))
    intro u
    apply tame_seqM (tame_of_stable stable_readSt)
    intro s0
    rcases lookupW s0.fileInfo item with _ | info
    · exact tame_of_stable (stable_throwM _)
    · simp only
      split
      · exact tame_of_stable (stable_pureM none)
      · split
        · apply tame_seqM (tame_of_stable (stable_serviceCreate _ _))
          intro created
          apply tame_seqM (tame_copyListAux _ (fun i => ih i _ none) _)
          intro u2
          apply tame_seqM (tame_of_stable (stable_addCopiedM item))
          intro u3
          apply tame_seqM (tame_addFolderM (item, created))
          intro u4
          exact tame_of_stable (stable_pureM _)
        · exact tame_seqM (tame_of_stable (stable_copyFile item dest))
            (fun r => tame_of_stable (stable_pureM _))

/-- Folder-mapping condition relative to a fixed snapshot `fi`. -/
def FoldersOkAt (fi : List (String × FileInfo)) {α : Type} (op : M α) : Prop :=
  ∀ st : St, st.fileInfo = fi →
    ∃ dl, (op st).2.folders = st.folders ++ dl ∧
      ∀ pr ∈ dl, ∃ i, lookupW fi (pr : String × String).1 = some i ∧
        i.mimeType = FOLDER_TYPE

theorem foldersOkAt_of_stable {α : Type} {op : M α} (fi : List (String × FileInfo))
    (h : Stable op) : FoldersOkAt fi op := by
  intro st hst
  rcases (h st).2.2.1 with ⟨dl, hdl, hc⟩
  rw [hst] at hc
  exact ⟨dl, hdl, hc⟩

theorem foldersOkAt_seqM {α β : Type} {f : M α} {g : α → M β}
    {fi : List (String × FileInfo)} (hfT : Tame f)
    (hf : FoldersOkAt fi f) (hg : ∀ a, FoldersOkAt fi (g a)) :
    FoldersOkAt fi (seqM f g) := by
  intro st hst
  rcases he : f st with ⟨r, st1⟩
  have h1 : st1.fileInfo = fi := by
    have := (tame_elim hfT he).1
    rw [this, hst]
  have hdl1 : ∃ dl, st1.folders = st.folders ++ dl ∧
      ∀ pr ∈ dl, ∃ i, lookupW fi (pr : String × String).1 = some i ∧
        i.mimeType = FOLDER_TYPE := by
    have hh := hf st hst
    rw [he] at hh
    exact hh
  cases r with
  | error e =>
    rw [seqM_err he]
    exact hdl1
  | ok a =>
    rw [seqM_ok he]
    rcases hdl1 with ⟨dl1, hdl1, hc1⟩
    rcases hg a st1 h1 with ⟨dl2, hdl2, hc2⟩
    refine ⟨dl1 ++ dl2, by rw [hdl2, hdl1, List.append_assoc], ?_⟩
    intro pr hpr
    rcases List.mem_append.1 hpr with hp | hp
    · exact hc1 pr hp
    · exact hc2 pr hp

theorem foldersOkAt_seqM_read {β : Type} {g : St → M β} {fi : List (String × FileInfo)}
    (hg : ∀ s0, s0.fileInfo = fi → FoldersOkAt fi (g s0)) :
    FoldersOkAt fi (seqM readSt g) := by
  intro st hst
  rw [seqM_ok (readSt_eval st)]
  exact hg st hst st hst

theorem foldersOkAt_addFolderM {fi : List (String × FileInfo)} {pr : String × String}
    (h : ∃ i, lookupW fi pr.1 = some i ∧ i.mimeType = FOLDER_TYPE) :
    FoldersOkAt fi (addFolderM pr) := by
  intro st hst
  refine ⟨[pr], rfl, ?_⟩
  intro q hq
  rcases List.mem_singleton.1 hq with rfl
  exact h

theorem foldersOkAt_copyListAux {fi : List (String × FileInfo)}
    (f : String → M (Option String)) (hfT : ∀ i, Tame (f i))
    (hf : ∀ i, FoldersOkAt fi (f i)) (l : List String) :
    FoldersOkAt fi (copyListAux f l) := by
  induction l with
  | nil => exact foldersOkAt_of_stable fi (stable_pureM ())
  | cons i rest ih => exact foldersOkAt_seqM (hfT i) (hf i) (fun _ => ih)

theorem foldersOkAt_copyItem : ∀ (fuel : Nat) (item dest : String) (nm : Option String)
    (fi : List (String × FileInfo)), FoldersOkAt fi (copyItem fuel item dest nm) := by
  intro fuel
  induction fuel with
  | zero => intro item dest nm fi; exact foldersOkAt_of_stable fi (stable_throwM _)
  | succ fuel ih =>
    intro item dest nm fi
    rw [copyItem]
    apply foldersOkAt_seqM (tame_of_stable (stable_sleepM 1))
      (foldersOkAt_of_stable fi (stable_sleepM 1))
    intro u
    apply foldersOkAt_seqM_read
    intro s0 hs0
    rcases hlk : lookupW s0.fileInfo item with _ | info
    · exact foldersOkAt_of_stable fi (stable_throwM _)
    · simp only
      split
      · exact foldersOkAt_of_stable fi (stable_pureM none)
      · by_cases hmime : (info.mimeType == FOLDER_TYPE) = true
        · rw [if_pos hmime]
          apply foldersOkAt_seqM (tame_of_stable (stable_serviceCreate _ _))
            (foldersOkAt_of_stable fi (stable_serviceCreate _ _))
          intro created
          apply foldersOkAt_seqM (tame_copyListAux _ (fun i => tame_copyItem fuel i _ none) _)
            (foldersOkAt_copyListAux _ (fun i => tame_copyItem fuel i _ none)
              (fun i => ih i _ none fi) _)
          intro u2
          apply foldersOkAt_seqM (tame_of_stable (stable_addCopiedM item))
            (foldersOkAt_of_stable fi (stable_addCopiedM item))
          intro u3
          apply foldersOkAt_seqM (tame_addFolderM (item, created))
          · apply foldersOkAt_addFolderM
            refine ⟨info, ?_, by simpa using hmime⟩
            rw [← hs0]
            exact hlk
          · intro u4
            exact foldersOkAt_of_stable fi (stable_pureM _)
        · rw [if_neg hmime]
          exact foldersOkAt_seqM (tame_of_stable (stable_copyFile item dest))
            (foldersOkAt_of_stable fi (stable_copyFile item dest))
            (fun r => foldersOkAt_of_stable fi (stable_pureM _))

theorem stable_copyItem (fuel : Nat) (item dest : String) (nm : Option String) :
    Stable (copyItem fuel item dest nm) := by
  intro st
  rcases tame_copyItem fuel item dest nm st with ⟨h1, h2, _, h4⟩
  rcases foldersOkAt_copyItem fuel item dest nm st.fileInfo st rfl with ⟨dl, hdl, hc⟩
  exact ⟨h1, h2, ⟨dl, hdl, hc⟩, h4⟩

theorem stable_runCleanupPairs (l : List (String × String)) :
    Stable (runCleanupPairs l) := by
  induction l with
  | nil => exact stable_pureM ()
  | cons pr rest ih =>
    rcases pr with ⟨p, d⟩
    exact stable_seqM (stable_cleanupFiles p d) (fun _ => ih)

theorem stable_run (fuel : Nat) (root dest : String) (nm : Option String) :
    Stable (run fuel root dest nm) := by
  intro st
  rcases h1e : copyItem fuel root dest nm st with ⟨r1, st1⟩
  have h1 := stable_elim (stable_copyItem fuel root dest nm) h1e
  rcases h2e : runCleanup { st1 with trace := st1.trace ++ [Op.sleepOp 45] }
    with ⟨r2, st2⟩
  have h2 := @stable_elim Unit (runCleanupPairs st1.folders)
    (stable_runCleanupPairs st1.folders)
    { st1 with trace := st1.trace ++ [Op.sleepOp 45] } r2 st2 h2e
  have hres : (run fuel root dest nm st).2 = st2 := by
    rw [run]
    simp only [h1e, h2e]
    cases r2 with
    | error e => rfl
    | ok u =>
      cases r1 with
      | error e => rfl
      | ok v => rfl
  rw [hres]
  refine ⟨by rw [h2.1]; exact h1.1, fun x hx => h2.2.1 x (h1.2.1 x hx), ?_, ?_⟩
  · rcases h1.2.2.1 with ⟨dl1, hdl1, hc1⟩
    rcases h2.2.2.1 with ⟨dl2, hdl2, hc2⟩
    refine ⟨dl1 ++ dl2, by rw [hdl2] at *; simp [hdl1, List.append_assoc], ?_⟩
    intro pr hpr
    rcases List.mem_append.1 hpr with hp | hp
    · exact hc1 pr hp
    · rcases hc2 pr hp with ⟨i, hi, hm⟩
      rw [h1.1] at hi
      exact ⟨i, hi, hm⟩
  · rcases h1.2.2.2 with ⟨t1, ht1⟩
    rcases h2.2.2.2 with ⟨t2, ht2⟩
    refine ⟨t1 ++ [Op.sleepOp 45] ++ t2, ?_⟩
    rw [ht2]
    simp [ht1, List.append_assoc]

theorem copyItem_noop {st : St} {x : String} {info : FileInfo} (fuel : Nat)
    (d : String) (nm : Option String)
    (hx : lookupW st.fileInfo x = some info) (hc : x ∈ st.copied) :
    copyItem (fuel + 1) x d nm st =
      (Except.ok none, { st with trace := st.trace ++ [Op.sleepOp 1] }) := by
  simp only [copyItem, seqM, sleepM, readSt]
  simp only [hx]
  rw [if_pos hc]
  rfl

theorem copyItem_keyError {st : St} {x : String} (fuel : Nat)
    (d : String) (nm : Option String)
    (hx : lookupW st.fileInfo x = none) :
    copyItem (fuel + 1) x d nm st =
      (Except.error (Err.keyError x), { st with trace := st.trace ++ [Op.sleepOp 1] }) := by
  simp only [copyItem, seqM, sleepM, readSt]
  simp only [hx]
  rfl

theorem copyFile_copied_of_ok {st st' : St} {i dest v : String}
    (he : copyFile i dest st = (Except.ok v, st')) : i ∈ st'.copied := by
  rw [copyFile] at he
  rcases hcl : serviceClone i st with ⟨r1, st1⟩
  cases r1 with
  | error e => rw [seqM_err hcl] at he; simp at he
  | ok c =>
    rw [seqM_ok hcl, seqM_ok (readSt_eval st1)] at he
    rcases hlk : lookupW st1.fileInfo i with _ | cur
    · simp only [hlk] at he
      simp [throwM] at he
    · simp only [hlk] at he
      rcases hmv : moveFile c dest (some cur.parent) (some cur.name) (some cur.mimeType) st1
        with ⟨r2, st2⟩
      cases r2 with
      | error e => rw [seqM_err hmv] at he; simp at he
      | ok mv =>
        rw [seqM_ok hmv] at he
        rcases hsl : (if (cur.mimeType == SPREADSHEET_TYPE) = true then sleepM 30
            else pureM ()) st2 with ⟨r3, st3⟩
        have hr3 : r3 = Except.ok () := by
          by_cases hmime : (cur.mimeType == SPREADSHEET_TYPE) = true
          · rw [if_pos hmime] at hsl
            simp [sleepM] at hsl
            exact hsl.1.symm
          · rw [if_neg hmime] at hsl
            simp [pureM] at hsl
            exact hsl.1.symm
        subst hr3
        rw [seqM_ok hsl, seqM_ok (addCopiedM_eval i st3)] at he
        rcases hcf : cleanupFiles cur.parent dest
            { st3 with copied := addCopiedL st3.copied i } with ⟨r4, st4⟩
        cases r4 with
        | error e => rw [seqM_err hcf] at he; simp at he
        | ok u =>
          rw [seqM_ok hcf] at he
          simp only [pureM, Prod.mk.injEq] at he
          have hst : st' = st4 := he.2.symm
          subst hst
          have hmem : i ∈ ({ st3 with copied := addCopiedL st3.copied i } : St).copied :=
            mem_addCopiedL st3.copied i
          exact (stable_elim (stable_cleanupFiles cur.parent dest) hcf).2.1 i hmem

theorem copyItem_copied_of_some {st st' : St} {fuel : Nat} {x d v : String}
    {nm : Option String}
    (he : copyItem fuel x d nm st = (Except.ok (some v), st')) : x ∈ st'.copied := by
  cases fuel with
  | zero => simp [copyItem, throwM] at he
  | succ fuel =>
    rw [copyItem, seqM_ok (sleepM_eval 1 st), seqM_ok (readSt_eval _)] at he
    rcases hlk : lookupW ({ st with trace := st.trace ++ [Op.sleepOp 1] } : St).fileInfo x
      with _ | info
    · simp only [hlk] at he
      simp [throwM] at he
    · simp only [hlk] at he
      by_cases hc : x ∈ ({ st with trace := st.trace ++ [Op.sleepOp 1] } : St).copied
      · rw [if_pos hc] at he
        simp [pureM] at he
      · rw [if_neg hc] at he
        by_cases hf : (info.mimeType == FOLDER_TYPE) = true
        · rw [if_pos hf, seqM_ok (serviceCreate_eval _ _ _)] at he
          rcases hcl : copyListAux
              (fun i => copyItem fuel i
                (genId ({ st with trace := st.trace ++ [Op.sleepOp 1] } : St).nextId) none)
              (orderedChildren
                ({ st with trace := st.trace ++ [Op.sleepOp 1] } : St).fileInfo x) _
            with ⟨r3, st3⟩
          cases r3 with
          | error e => rw [seqM_err hcl] at he; simp at he
          | ok u =>
            rw [seqM_ok hcl, seqM_ok (addCopiedM_eval x st3),
              seqM_ok (addFolderM_eval _ _)] at he
            simp only [pureM, Prod.mk.injEq] at he
            rw [← he.2]
            exact mem_addCopiedL st3.copied x
        · rw [if_neg hf] at he
          rcases hcf : copyFile x d ({ st with trace := st.trace ++ [Op.sleepOp 1] } : St)
            with ⟨r2, st2⟩
          cases r2 with
          | error e => rw [seqM_err hcf] at he; simp at he
          | ok mv =>
            rw [seqM_ok hcf] at he
            simp only [pureM, Prod.mk.injEq] at he
            rw [← he.2]
            exact copyFile_copied_of_ok hcf

/-! ### World-effect lemmas for the reconciliation engine -/

theorem truthy_some {s : String} (h : s ≠ "") : truthy (some s) = true := by
  cases hd : s.data.isEmpty with
  | false => simp [truthy, hd]
  | true => exact absurd (String.ext (List.isEmpty_iff.1 hd)) h

theorem string_ne_of_data_ne {s : String} (h : s.data ≠ []) : s ≠ "" := by
  intro hh
  rw [hh] at h
  exact h rfl

theorem serviceGet_world (i : String) (st : St) : ((serviceGet i st).2).world = st.world := by
  simp only [serviceGet]
  rcases lookupW st.world i with _ | info <;> rfl

theorem serviceUpdate_world_keys (i a rm n : String) (st : St) (k : String) (hk : k ≠ i) :
    lookupW ((serviceUpdate i a rm n st).2).world k = lookupW st.world k := by
  simp only [serviceUpdate]
  rcases lookupW st.world i with _ | info
  · rfl
  · simp only
    rw [lookupW_updateW, if_neg hk]

theorem serviceUpdate_none_mono (i a rm n : String) (st : St) (k : String)
    (h : lookupW st.world k = none) :
    lookupW ((serviceUpdate i a rm n st).2).world k = none := by
  simp only [serviceUpdate]
  rcases lookupW st.world i with _ | info
  · exact h
  · simp only
    rw [lookupW_updateW]
    by_cases hk : k = i
    · rw [if_pos hk, h]
      rfl
    · rw [if_neg hk]
      exact h

theorem moveFile_world_keys (i dest : String) (cp n mt : Option String) (st : St)
    (k : String) (hk : k ≠ i) :
    lookupW ((moveFile i dest cp n mt st).2).world k = lookupW st.world k := by
  rw [moveFile]
  split
  · exact serviceUpdate_world_keys _ _ _ _ _ _ hk
  · rcases hg : serviceGet i st with ⟨r1, st1⟩
    have hw1 : st1.world = st.world := by
      have := serviceGet_world i st
      rw [hg] at this
      exact this
    cases r1 with
    | error e =>
      rw [seqM_err hg]
      rw [hw1]
    | ok info =>
      rw [seqM_ok hg]
      rw [serviceUpdate_world_keys _ _ _ _ _ _ hk, hw1]

theorem moveFile_none_mono (i dest : String) (cp n mt : Option String) (st : St)
    (k : String) (h : lookupW st.world k = none) :
    lookupW ((moveFile i dest cp n mt st).2).world k = none := by
  rw [moveFile]
  split
  · exact serviceUpdate_none_mono _ _ _ _ _ _ h
  · rcases hg : serviceGet i st with ⟨r1, st1⟩
    have hw1 : st1.world = st.world := by
      have := serviceGet_world i st
      rw [hg] at this
      exact this
    cases r1 with
    | error e =>
      rw [seqM_err hg]
      rw [hw1]
      exact h
    | ok info =>
      rw [seqM_ok hg]
      exact serviceUpdate_none_mono _ _ _ _ _ _ (by rw [hw1]; exact h)

/-- `move_file` with a known source parent, name and mime-type, applied
to a node present remotely: one update request; the node ends under
`dest`, renamed to `clean` when `clean` is nonempty (truthy), else
re-fetched and left under its current remote name. -/
theorem moveFile_clean_spec {st : St} {z d p clean : String} {zi : FileInfo}
    (hz : lookupW st.world z = some zi) (hp : p ≠ "") (hmime : zi.mimeType ≠ "") :
    ∃ tr, moveFile z d (some p) (some clean) (some zi.mimeType) st =
      (Except.ok z,
        { st with
          world := updateW st.world z d (if clean = "" then zi.name else clean)
          trace := st.trace ++ tr }) ∧
      (∀ o ∈ tr, callOf o = none) ∧ tr.countP isDeleteOp = 0 := by
  by_cases hc : clean = ""
  · rw [moveFile]
    rw [if_neg (by simp [hc, truthy])]
    rw [seqM_ok (show serviceGet z st =
      (Except.ok zi, { st with trace := st.trace ++ [Op.getOp z] }) by
        simp only [serviceGet, hz])]
    refine ⟨[Op.getOp z, Op.updateOp z d zi.parent zi.name], ?_, ?_, by simp [isDeleteOp]⟩
    · simp only [serviceUpdate]
      rw [show lookupW ({ st with trace := st.trace ++ [Op.getOp z] } : St).world z =
        some zi from hz]
      simp only [if_pos hc]
      simp [St.mk.injEq, List.append_assoc]
    · intro o ho
      rcases List.mem_cons.1 ho with rfl | ho2
      · rfl
      · rcases List.mem_singleton.1 ho2 with rfl
        rfl
  · rw [moveFile]
    rw [if_pos (by simp [truthy_some hp, truthy_some hc, truthy_some hmime])]
    refine ⟨[Op.updateOp z d p clean], ?_, ?_, by simp [isDeleteOp]⟩
    · simp only [serviceUpdate, hz]
      simp only [if_neg hc]
      rfl
    · intro o ho
      rcases List.mem_singleton.1 ho with rfl
      rfl

/-- An entry already present in the snapshot is skipped untouched. -/
theorem stepEntry_skip {st : St} {p d : String} {m : List (String × String)}
    {e : String × FileInfo} {i : FileInfo}
    (h : lookupW st.fileInfo e.1 = some i) :
    stepEntry p d m e st = (Except.ok (), st) := by
  rw [stepEntry, seqM_ok (readSt_eval st)]
  simp only [h]
  rfl

/-- A stray whose clean name maps to its own id is skipped untouched
(the `id_to_delete == current_file_id` branch). -/
theorem stepEntry_self {st : St} {p d : String} {m : List (String × String)}
    {e : String × FileInfo}
    (hsnap : lookupW st.fileInfo e.1 = none)
    (hself : mLookup m (cleanOf e.2.name) = some e.1) :
    stepEntry p d m e st = (Except.ok (), st) := by
  rw [stepEntry, seqM_ok (readSt_eval st)]
  simp only [hsnap, hself]
  rw [if_pos (by simp)]
  rfl

/-- A stray with no name collision is moved into the destination. -/
theorem stepEntry_move_spec {st : St} {p d : String} {m : List (String × String)}
    {e : String × FileInfo}
    (hsnap : lookupW st.fileInfo e.1 = none)
    (hmiss : mLookup m (cleanOf e.2.name) = none)
    (hz : lookupW st.world e.1 = some e.2)
    (hp : p ≠ "") (hmime : e.2.mimeType ≠ "") :
    ∃ tr, stepEntry p d m e st =
      (Except.ok (),
        { st with world := updateW st.world e.1 d (mvName e.2), trace := st.trace ++ tr }) ∧
      (∀ o ∈ tr, callOf o = none) ∧ tr.countP isDeleteOp = 0 := by
  rw [stepEntry, seqM_ok (readSt_eval st)]
  simp only [hsnap, hmiss]
  rcases @moveFile_clean_spec st e.1 d p (cleanOf e.2.name) e.2 hz hp hmime
    with ⟨tr, hmv, hcf, hcd⟩
  refine ⟨tr, ?_, hcf, hcd⟩
  rw [seqM_ok hmv]
  rw [mvName]
  rfl

/-- A stray colliding with a different destination id, which is still
present remotely: one delete, then the move. -/
theorem stepEntry_delmove_spec {st : St} {p d : String} {m : List (String × String)}
    {e : String × FileInfo} {o : String}
    (hsnap : lookupW st.fileInfo e.1 = none)
    (hhit : mLookup m (cleanOf e.2.name) = some o)
    (hne : o ≠ e.1)
    (ho : lookupW st.world o ≠ none)
    (hz : lookupW st.world e.1 = some e.2)
    (hp : p ≠ "") (hmime : e.2.mimeType ≠ "") :
    ∃ tr, stepEntry p d m e st =
      (Except.ok (),
        { st with
          world := updateW (deleteW st.world o) e.1 d (mvName e.2)
          trace := st.trace ++ (Op.deleteOp o :: tr) }) ∧
      (∀ q ∈ tr, callOf q = none) ∧ tr.countP isDeleteOp = 0 := by
  rw [stepEntry, seqM_ok (readSt_eval st)]
  simp only [hsnap, hhit]
  rw [if_neg (by simp [hne])]
  rcases hlo : lookupW st.world o with _ | oi
  · exact absurd hlo ho
  · rw [seqM_ok (show serviceDelete o st =
      (Except.ok (),
        { st with
          world := deleteW st.world o
          trace := st.trace ++ [Op.deleteOp o] }) by simp only [serviceDelete, hlo])]
    have hz2 : lookupW ({ st with
        world := deleteW st.world o
        trace := st.trace ++ [Op.deleteOp o] } : St).world e.1 = some e.2 := by
      show lookupW (deleteW st.world o) e.1 = some e.2
      rw [lookupW_deleteW, if_neg (fun hh => hne hh.symm)]
      exact hz
    rcases @moveFile_clean_spec _ e.1 d p (cleanOf e.2.name) e.2 hz2 hp hmime
      with ⟨tr, hmv, hcf, hcd⟩
    refine ⟨tr, ?_, hcf, hcd⟩
    rw [seqM_ok hmv]
    simp [pureM, mvName, List.append_assoc]

/-- A stray colliding with a destination id that no longer exists
remotely: the delete request fails and the exception propagates. -/
theorem stepEntry_del_fail {st : St} {p d : String} {m : List (String × String)}
    {e : String × FileInfo} {o : String}
    (hsnap : lookupW st.fileInfo e.1 = none)
    (hhit : mLookup m (cleanOf e.2.name) = some o)
    (hne : o ≠ e.1)
    (ho : lookupW st.world o = none) :
    stepEntry p d m e st =
      (Except.error (Err.notFound o), { st with trace := st.trace ++ [Op.deleteOp o] }) := by
  rw [stepEntry, seqM_ok (readSt_eval st)]
  simp only [hsnap, hhit]
  rw [if_neg (by simp [hne])]
  rw [seqM_err (show serviceDelete o st =
    (Except.error (Err.notFound o), { st with trace := st.trace ++ [Op.deleteOp o] })
    by simp only [serviceDelete, ho])]

theorem serviceDelete_eval_some {st : St} {i : String} {oi : FileInfo}
    (h : lookupW st.world i = some oi) :
    serviceDelete i st = (Except.ok (),
      { st with
        world := deleteW st.world i
        trace := st.trace ++ [Op.deleteOp i] }) := by
  simp only [serviceDelete, h]

theorem serviceDelete_eval_none {st : St} {i : String}
    (h : lookupW st.world i = none) :
    serviceDelete i st = (Except.error (Err.notFound i),
      { st with trace := st.trace ++ [Op.deleteOp i] }) := by
  simp only [serviceDelete, h]

theorem serviceUpdate_nodup (i a rm n : String) (st : St)
    (h : (idsW st.world).Nodup) : (idsW ((serviceUpdate i a rm n st).2).world).Nodup := by
  simp only [serviceUpdate]
  rcases lookupW st.world i with _ | info
  · exact h
  · exact nodup_updateW _ _ _ h

theorem serviceUpdate_mimeAll (i a rm n : String) (st : St)
    (h : ∀ e ∈ st.world, (e : String × FileInfo).2.mimeType ≠ "") :
    ∀ e ∈ ((serviceUpdate i a rm n st).2).world,
      (e : String × FileInfo).2.mimeType ≠ "" := by
  simp only [serviceUpdate]
  rcases lookupW st.world i with _ | info
  · exact h
  · exact mimeAll_updateW _ _ _ h

theorem moveFile_nodup (i dest : String) (cp n mt : Option String) (st : St)
    (h : (idsW st.world).Nodup) :
    (idsW ((moveFile i dest cp n mt st).2).world).Nodup := by
  rw [moveFile]
  split
  · exact serviceUpdate_nodup _ _ _ _ _ h
  · rcases hg : serviceGet i st with ⟨r1, st1⟩
    have hw1 : st1.world = st.world := by
      have := serviceGet_world i st
      rw [hg] at this
      exact this
    cases r1 with
    | error e =>
      rw [seqM_err hg]
      rw [hw1]
      exact h
    | ok info =>
      rw [seqM_ok hg]
      exact serviceUpdate_nodup _ _ _ _ _ (by rw [hw1]; exact h)

theorem moveFile_mimeAll (i dest : String) (cp n mt : Option String) (st : St)
    (h : ∀ e ∈ st.world, (e : String × FileInfo).2.mimeType ≠ "") :
    ∀ e ∈ ((moveFile i dest cp n mt st).2).world,
      (e : String × FileInfo).2.mimeType ≠ "" := by
  rw [moveFile]
  split
  · exact serviceUpdate_mimeAll _ _ _ _ _ h
  · rcases hg : serviceGet i st with ⟨r1, st1⟩
    have hw1 : st1.world = st.world := by
      have := serviceGet_world i st
      rw [hg] at this
      exact this
    cases r1 with
    | error e =>
      rw [seqM_err hg]
      rw [hw1]
      exact h
    | ok info =>
      rw [seqM_ok hg]
      exact serviceUpdate_mimeAll _ _ _ _ _ (by rw [hw1]; exact h)

/-- Any single reconciliation step leaves every id untouched that is
neither the processed entry's id nor a value of the destination map. -/
theorem stepEntry_frame_keys (p d : String) (m : List (String × String))
    (e : String × FileInfo) (st : St) (k : String)
    (hk1 : k ≠ e.1) (hk2 : ∀ s, mLookup m s ≠ some k) :
    lookupW ((stepEntry p d m e st).2).world k = lookupW st.world k := by
  rw [stepEntry, seqM_ok (readSt_eval st)]
  rcases lookupW st.fileInfo e.1 with _ | i
  · simp only
    rcases hml : mLookup m (cleanOf e.2.name) with _ | idDel
    · simp only
      rcases hmv : moveFile e.1 d (some p) (some (cleanOf e.2.name))
          (some e.2.mimeType) st with ⟨r1, st1⟩
      have hmw := moveFile_world_keys e.1 d (some p) (some (cleanOf e.2.name))
        (some e.2.mimeType) st k hk1
      rw [hmv] at hmw
      cases r1 with
      | error er => rw [seqM_err hmv]; exact hmw
      | ok v => rw [seqM_ok hmv]; exact hmw
    · simp only
      have hkd : idDel ≠ k := fun hh => hk2 (cleanOf e.2.name) (hh ▸ hml)
      split
      · rfl
      · rcases hlo : lookupW st.world idDel with _ | oi
        · rw [seqM_err (serviceDelete_eval_none hlo)]
        · rw [seqM_ok (serviceDelete_eval_some hlo)]
          rcases hmv : moveFile e.1 d (some p) (some (cleanOf e.2.name))
              (some e.2.mimeType) ({ st with
                world := deleteW st.world idDel
                trace := st.trace ++ [Op.deleteOp idDel] } : St) with ⟨r1, st1⟩
          have hmw := moveFile_world_keys e.1 d (some p) (some (cleanOf e.2.name))
            (some e.2.mimeType) ({ st with
              world := deleteW st.world idDel
              trace := st.trace ++ [Op.deleteOp idDel] } : St) k hk1
          rw [hmv] at hmw
          have hdel : lookupW (deleteW st.world idDel) k = lookupW st.world k := by
            rw [lookupW_deleteW, if_neg (fun hh => hkd hh.symm)]
          cases r1 with
          | error er =>
            rw [seqM_err hmv]
            exact hmw.trans hdel
          | ok v =>
            rw [seqM_ok hmv]
            exact hmw.trans hdel
  · rfl

/-- A reconciliation step never resurrects a deleted id. -/
theorem stepEntry_none_mono (p d : String) (m : List (String × String))
    (e : String × FileInfo) (st : St) (k : String)
    (h : lookupW st.world k = none) :
    lookupW ((stepEntry p d m e st).2).world k = none := by
  rw [stepEntry, seqM_ok (readSt_eval st)]
  rcases lookupW st.fileInfo e.1 with _ | i
  · simp only
    rcases hml : mLookup m (cleanOf e.2.name) with _ | idDel
    · simp only
      rcases hmv : moveFile e.1 d (some p) (some (cleanOf e.2.name))
          (some e.2.mimeType) st with ⟨r1, st1⟩
      have hmw := moveFile_none_mono e.1 d (some p) (some (cleanOf e.2.name))
        (some e.2.mimeType) st k h
      rw [hmv] at hmw
      cases r1 with
      | error er => rw [seqM_err hmv]; exact hmw
      | ok v => rw [seqM_ok hmv]; exact hmw
    · simp only
      split
      · exact h
      · rcases hlo : lookupW st.world idDel with _ | oi
        · rw [seqM_err (serviceDelete_eval_none hlo)]
          exact h
        · rw [seqM_ok (serviceDelete_eval_some hlo)]
          have hdel : lookupW (deleteW st.world idDel) k = none := by
            rw [lookupW_deleteW]
            by_cases hk : k = idDel
            · rw [if_pos hk]
            · rw [if_neg hk]; exact h
          rcases hmv : moveFile e.1 d (some p) (some (cleanOf e.2.name))
              (some e.2.mimeType) ({ st with
                world := deleteW st.world idDel
                trace := st.trace ++ [Op.deleteOp idDel] } : St) with ⟨r1, st1⟩
          have hmw := moveFile_none_mono e.1 d (some p) (some (cleanOf e.2.name))
            (some e.2.mimeType) ({ st with
              world := deleteW st.world idDel
              trace := st.trace ++ [Op.deleteOp idDel] } : St) k hdel
          rw [hmv] at hmw
          cases r1 with
          | error er => rw [seqM_err hmv]; exact hmw
          | ok v => rw [seqM_ok hmv]; exact hmw
  · exact h

theorem serviceGet_eval_some {st : St} {i : String} {info : FileInfo}
    (h : lookupW st.world i = some info) :
    serviceGet i st = (Except.ok info, { st with trace := st.trace ++ [Op.getOp i] }) := by
  simp only [serviceGet, h]

theorem serviceGet_eval_none {st : St} {i : String}
    (h : lookupW st.world i = none) :
    serviceGet i st = (Except.error (Err.notFound i),
      { st with trace := st.trace ++ [Op.getOp i] }) := by
  simp only [serviceGet, h]

theorem serviceUpdate_eval_some {st : St} {i : String} {info : FileInfo}
    (a rm n : String) (h : lookupW st.world i = some info) :
    serviceUpdate i a rm n st = (Except.ok i,
      { st with
        world := updateW st.world i a n
        trace := st.trace ++ [Op.updateOp i a rm n] }) := by
  simp only [serviceUpdate, h]

theorem serviceUpdate_eval_none {st : St} {i : String}
    (a rm n : String) (h : lookupW st.world i = none) :
    serviceUpdate i a rm n st = (Except.error (Err.notFound i),
      { st with trace := st.trace ++ [Op.updateOp i a rm n] }) := by
  simp only [serviceUpdate, h]

theorem moveFile_trace (i dest : String) (cp n mt : Option String) (st : St) :
    ∃ tr, ((moveFile i dest cp n mt st).2).trace = st.trace ++ tr ∧
      (∀ o ∈ tr, callOf o = none) ∧ tr.countP isDeleteOp = 0 := by
  rw [moveFile]
  split
  · rcases hlo : lookupW st.world i with _ | info
    · rw [serviceUpdate_eval_none _ _ _ hlo]
      refine ⟨[Op.updateOp i dest (cp.getD "") (n.getD "")], rfl, ?_, by simp [isDeleteOp]⟩
      intro o ho
      rcases List.mem_singleton.1 ho with rfl
      rfl
    · rw [serviceUpdate_eval_some _ _ _ hlo]
      refine ⟨[Op.updateOp i dest (cp.getD "") (n.getD "")], rfl, ?_, by simp [isDeleteOp]⟩
      intro o ho
      rcases List.mem_singleton.1 ho with rfl
      rfl
  · rcases hlo : lookupW st.world i with _ | info
    · rw [seqM_err (serviceGet_eval_none hlo)]
      refine ⟨[Op.getOp i], rfl, ?_, by simp [isDeleteOp]⟩
      intro o ho
      rcases List.mem_singleton.1 ho with rfl
      rfl
    · rw [seqM_ok (serviceGet_eval_some hlo)]
      rcases hlo2 : lookupW ({ st with trace := st.trace ++ [Op.getOp i] } : St).world i
        with _ | info2
      · rw [serviceUpdate_eval_none _ _ _ hlo2]
        refine ⟨[Op.getOp i, Op.updateOp i dest info.parent info.name], by simp, ?_,
          by simp [isDeleteOp]⟩
        intro o ho
        rcases List.mem_cons.1 ho with rfl | ho2
        · rfl
        · rcases List.mem_singleton.1 ho2 with rfl
          rfl
      · rw [serviceUpdate_eval_some _ _ _ hlo2]
        refine ⟨[Op.getOp i, Op.updateOp i dest info.parent info.name], by simp, ?_,
          by simp [isDeleteOp]⟩
        intro o ho
        rcases List.mem_cons.1 ho with rfl | ho2
        · rfl
        · rcases List.mem_singleton.1 ho2 with rfl
          rfl

/-- One reconciliation step issues at most one delete request and never
re-enters reconciliation (no cleanup marker in its trace). -/
theorem stepEntry_trace (p d : String) (m : List (String × String))
    (e : String × FileInfo) (st : St) :
    ∃ tr, ((stepEntry p d m e st).2).trace = st.trace ++ tr ∧
      (∀ o ∈ tr, callOf o = none) ∧ tr.countP isDeleteOp ≤ 1 := by
  rw [stepEntry, seqM_ok (readSt_eval st)]
  rcases lookupW st.fileInfo e.1 with _ | i
  · simp only
    rcases hml : mLookup m (cleanOf e.2.name) with _ | idDel
    · simp only
      rcases hmv : moveFile e.1 d (some p) (some (cleanOf e.2.name))
          (some e.2.mimeType) st with ⟨r1, st1⟩
      rcases moveFile_trace e.1 d (some p) (some (cleanOf e.2.name))
          (some e.2.mimeType) st with ⟨tr, htr, hcf, hcd⟩
      rw [hmv] at htr
      cases r1 with
      | error er =>
        rw [seqM_err hmv]
        exact ⟨tr, htr, hcf, by omega⟩
      | ok v =>
        rw [seqM_ok hmv]
        exact ⟨tr, htr, hcf, by omega⟩
    · simp only
      split
      · exact ⟨[], by simp [pureM], by simp, by simp⟩
      · rcases hlo : lookupW st.world idDel with _ | oi
        · rw [seqM_err (serviceDelete_eval_none hlo)]
          refine ⟨[Op.deleteOp idDel], by simp, ?_, by simp [isDeleteOp]⟩
          intro o ho
          rcases List.mem_singleton.1 ho with rfl
          rfl
        · rw [seqM_ok (serviceDelete_eval_some hlo)]
          rcases hmv : moveFile e.1 d (some p) (some (cleanOf e.2.name))
              (some e.2.mimeType) ({ st with
                world := deleteW st.world idDel
                trace := st.trace ++ [Op.deleteOp idDel] } : St) with ⟨r1, st1⟩
          rcases moveFile_trace e.1 d (some p) (some (cleanOf e.2.name))
              (some e.2.mimeType) ({ st with
                world := deleteW st.world idDel
                trace := st.trace ++ [Op.deleteOp idDel] } : St) with ⟨tr, htr, hcf, hcd⟩
          rw [hmv] at htr
          have hfin : st1.trace = st.trace ++ (Op.deleteOp idDel :: tr) := by
            have : st1.trace = (st.trace ++ [Op.deleteOp idDel]) ++ tr := htr
            rw [this]
            simp
          cases r1 with
          | error er =>
            rw [seqM_err hmv]
            refine ⟨Op.deleteOp idDel :: tr, hfin, ?_, ?_⟩
            · intro o ho
              rcases List.mem_cons.1 ho with rfl | ho2
              · rfl
              · exact hcf o ho2
            · simp [List.countP_cons, isDeleteOp, hcd]
          | ok v =>
            rw [seqM_ok hmv]
            refine ⟨Op.deleteOp idDel :: tr, hfin, ?_, ?_⟩
            · intro o ho
              rcases List.mem_cons.1 ho with rfl | ho2
              · rfl
              · exact hcf o ho2
            · simp [List.countP_cons, isDeleteOp, hcd]
  · exact ⟨[], by simp [pureM], by simp, by simp⟩

/-- If a stray's clean name collides with a different id and the step
returns normally, that id was present remotely and is deleted by the
step. -/
theorem stepEntry_trig_ok {st st' : St} {p d : String} {m : List (String × String)}
    {e : String × FileInfo} {o : String}
    (hsnap : lookupW st.fileInfo e.1 = none)
    (hhit : mLookup m (cleanOf e.2.name) = some o)
    (hne : o ≠ e.1)
    (he : stepEntry p d m e st = (Except.ok (), st')) :
    lookupW st.world o ≠ none ∧ lookupW st'.world o = none := by
  rw [stepEntry, seqM_ok (readSt_eval st)] at he
  simp only [hsnap, hhit] at he
  rw [if_neg (by simp [hne])] at he
  rcases hlo : lookupW st.world o with _ | oi
  · rw [seqM_err (serviceDelete_eval_none hlo)] at he
    simp at he
  · rw [seqM_ok (serviceDelete_eval_some hlo)] at he
    refine ⟨by simp [hlo], ?_⟩
    have hdel : lookupW ({ st with
        world := deleteW st.world o
        trace := st.trace ++ [Op.deleteOp o] } : St).world o = none := by
      show lookupW (deleteW st.world o) o = none
      rw [lookupW_deleteW, if_pos rfl]
    rcases hmv : moveFile e.1 d (some p) (some (cleanOf e.2.name))
        (some e.2.mimeType) ({ st with
          world := deleteW st.world o
          trace := st.trace ++ [Op.deleteOp o] } : St) with ⟨r1, st1⟩
    have hmono := moveFile_none_mono e.1 d (some p) (some (cleanOf e.2.name))
      (some e.2.mimeType) ({ st with
        world := deleteW st.world o
        trace := st.trace ++ [Op.deleteOp o] } : St) o hdel
    rw [hmv] at hmono
    cases r1 with
    | error er =>
      rw [seqM_err hmv] at he
      simp at he
    | ok v =>
      rw [seqM_ok hmv] at he
      simp only [pureM, Prod.mk.injEq] at he
      rw [← he.2]
      exact hmono

theorem stepEntry_nodup (p d : String) (m : List (String × String))
    (e : String × FileInfo) (st : St) (h : (idsW st.world).Nodup) :
    (idsW ((stepEntry p d m e st).2).world).Nodup := by
  rw [stepEntry, seqM_ok (readSt_eval st)]
  rcases lookupW st.fileInfo e.1 with _ | i
  · simp only
    rcases hml : mLookup m (cleanOf e.2.name) with _ | idDel
    · simp only
      rcases hmv : moveFile e.1 d (some p) (some (cleanOf e.2.name))
          (some e.2.mimeType) st with ⟨r1, st1⟩
      have hmw := moveFile_nodup e.1 d (some p) (some (cleanOf e.2.name))
        (some e.2.mimeType) st h
      rw [hmv] at hmw
      cases r1 with
      | error er => rw [seqM_err hmv]; exact hmw
      | ok v => rw [seqM_ok hmv]; exact hmw
    · simp only
      split
      · exact h
      · rcases hlo : lookupW st.world idDel with _ | oi
        · rw [seqM_err (serviceDelete_eval_none hlo)]
          exact h
        · rw [seqM_ok (serviceDelete_eval_some hlo)]
          have hd : (idsW (({ st with
              world := deleteW st.world idDel
              trace := st.trace ++ [Op.deleteOp idDel] } : St)).world).Nodup :=
            nodup_deleteW idDel h
          rcases hmv : moveFile e.1 d (some p) (some (cleanOf e.2.name))
              (some e.2.mimeType) ({ st with
                world := deleteW st.world idDel
                trace := st.trace ++ [Op.deleteOp idDel] } : St) with ⟨r1, st1⟩
          have hmw := moveFile_nodup e.1 d (some p) (some (cleanOf e.2.name))
            (some e.2.mimeType) ({ st with
              world := deleteW st.world idDel
              trace := st.trace ++ [Op.deleteOp idDel] } : St) hd
          rw [hmv] at hmw
          cases r1 with
          | error er => rw [seqM_err hmv]; exact hmw
          | ok v => rw [seqM_ok hmv]; exact hmw
  · exact h

theorem stepEntry_mimeAll (p d : String) (m : List (String × String))
    (e : String × FileInfo) (st : St)
    (h : ∀ q ∈ st.world, (q : String × FileInfo).2.mimeType ≠ "") :
    ∀ q ∈ ((stepEntry p d m e st).2).world, (q : String × FileInfo).2.mimeType ≠ "" := by
  rw [stepEntry, seqM_ok (readSt_eval st)]
  rcases lookupW st.fileInfo e.1 with _ | i
  · simp only
    rcases hml : mLookup m (cleanOf e.2.name) with _ | idDel
    · simp only
      rcases hmv : moveFile e.1 d (some p) (some (cleanOf e.2.name))
          (some e.2.mimeType) st with ⟨r1, st1⟩
      have hmw := moveFile_mimeAll e.1 d (some p) (some (cleanOf e.2.name))
        (some e.2.mimeType) st h
      rw [hmv] at hmw
      cases r1 with
      | error er => rw [seqM_err hmv]; exact hmw
      | ok v => rw [seqM_ok hmv]; exact hmw
    · simp only
      split
      · exact h
      · rcases hlo : lookupW st.world idDel with _ | oi
        · rw [seqM_err (serviceDelete_eval_none hlo)]
          exact h
        · rw [seqM_ok (serviceDelete_eval_some hlo)]
          have hd : ∀ q ∈ (({ st with
              world := deleteW st.world idDel
              trace := st.trace ++ [Op.deleteOp idDel] } : St)).world,
              (q : String × FileInfo).2.mimeType ≠ "" :=
            mimeAll_deleteW idDel h
          rcases hmv : moveFile e.1 d (some p) (some (cleanOf e.2.name))
              (some e.2.mimeType) ({ st with
                world := deleteW st.world idDel
                trace := st.trace ++ [Op.deleteOp idDel] } : St) with ⟨r1, st1⟩
          have hmw := moveFile_mimeAll e.1 d (some p) (some (cleanOf e.2.name))
            (some e.2.mimeType) ({ st with
              world := deleteW st.world idDel
              trace := st.trace ++ [Op.deleteOp idDel] } : St) hd
          rw [hmv] at hmw
          cases r1 with
          | error er => rw [seqM_err hmv]; exact hmw
          | ok v => rw [seqM_ok hmv]; exact hmw
  · exact h

theorem cleanupLoop_cons_eval (p d : String) (m : List (String × String))
    (e : String × FileInfo) (L : List (String × FileInfo)) (st : St) :
    cleanupLoop p d m (e :: L) st =
      seqM (stepEntry p d m e) (fun _ => cleanupLoop p d m L) st := rfl

theorem stepEntry_fileInfo (p d : String) (m : List (String × String))
    (e : String × FileInfo) (st : St) :
    ((stepEntry p d m e st).2).fileInfo = st.fileInfo :=
  (stable_stepEntry p d m e st).1

theorem cleanupLoop_fileInfo (p d : String) (m : List (String × String))
    (L : List (String × FileInfo)) (st : St) :
    ((cleanupLoop p d m L st).2).fileInfo = st.fileInfo :=
  (stable_cleanupLoop p d m L st).1

theorem cleanupLoop_append (p d : String) (m : List (String × String))
    (A B : List (String × FileInfo)) (st : St) :
    cleanupLoop p d m (A ++ B) st =
      match cleanupLoop p d m A st with
      | (Except.ok _, st1) => cleanupLoop p d m B st1
      | (Except.error e, st1) => (Except.error e, st1) := by
  induction A generalizing st with
  | nil => rfl
  | cons f A' ih =>
    rw [List.cons_append, cleanupLoop_cons_eval, cleanupLoop_cons_eval]
    rcases hse : stepEntry p d m f st with ⟨r1, st1⟩
    cases r1 with
    | error er => rw [seqM_err hse, seqM_err hse]
    | ok u => rw [seqM_ok hse, seqM_ok hse, ih st1]

theorem cleanupLoop_frame_keys (p d : String) (m : List (String × String))
    (L : List (String × FileInfo)) (st : St) (k : String)
    (hk1 : ∀ e ∈ L, k ≠ (e : String × FileInfo).1)
    (hk2 : ∀ s, mLookup m s ≠ some k) :
    lookupW ((cleanupLoop p d m L st).2).world k = lookupW st.world k := by
  induction L generalizing st with
  | nil => rfl
  | cons f L' ih =>
    rw [cleanupLoop_cons_eval]
    rcases hse : stepEntry p d m f st with ⟨r1, st1⟩
    have hstep := stepEntry_frame_keys p d m f st k (hk1 f (List.mem_cons_self f L')) hk2
    rw [hse] at hstep
    cases r1 with
    | error er => rw [seqM_err hse]; exact hstep
    | ok u =>
      rw [seqM_ok hse]
      rw [ih st1 (fun e hef => hk1 e (List.mem_cons_of_mem f hef))]
      exact hstep

theorem cleanupLoop_none_mono (p d : String) (m : List (String × String))
    (L : List (String × FileInfo)) (st : St) (k : String)
    (h : lookupW st.world k = none) :
    lookupW ((cleanupLoop p d m L st).2).world k = none := by
  induction L generalizing st with
  | nil => exact h
  | cons f L' ih =>
    rw [cleanupLoop_cons_eval]
    rcases hse : stepEntry p d m f st with ⟨r1, st1⟩
    have hstep := stepEntry_none_mono p d m f st k h
    rw [hse] at hstep
    cases r1 with
    | error er => rw [seqM_err hse]; exact hstep
    | ok u =>
      rw [seqM_ok hse]
      exact ih st1 hstep

theorem cleanupLoop_nodup (p d : String) (m : List (String × String))
    (L : List (String × FileInfo)) (st : St) (h : (idsW st.world).Nodup) :
    (idsW ((cleanupLoop p d m L st).2).world).Nodup := by
  induction L generalizing st with
  | nil => exact h
  | cons f L' ih =>
    rw [cleanupLoop_cons_eval]
    rcases hse : stepEntry p d m f st with ⟨r1, st1⟩
    have hstep := stepEntry_nodup p d m f st h
    rw [hse] at hstep
    cases r1 with
    | error er => rw [seqM_err hse]; exact hstep
    | ok u =>
      rw [seqM_ok hse]
      exact ih st1 hstep

theorem stepEntry_untouched (p d : String) (m : List (String × String))
    (e : String × FileInfo) (st : St) (k : String) (hk : k ≠ e.1) :
    lookupW ((stepEntry p d m e st).2).world k = lookupW st.world k ∨
      lookupW ((stepEntry p d m e st).2).world k = none := by
  rw [stepEntry, seqM_ok (readSt_eval st)]
  rcases lookupW st.fileInfo e.1 with _ | i
  · simp only
    rcases hml : mLookup m (cleanOf e.2.name) with _ | idDel
    · simp only
      rcases hmv : moveFile e.1 d (some p) (some (cleanOf e.2.name))
          (some e.2.mimeType) st with ⟨r1, st1⟩
      have hmw := moveFile_world_keys e.1 d (some p) (some (cleanOf e.2.name))
        (some e.2.mimeType) st k hk
      rw [hmv] at hmw
      cases r1 with
      | error er => rw [seqM_err hmv]; exact Or.inl hmw
      | ok v => rw [seqM_ok hmv]; exact Or.inl hmw
    · simp only
      split
      · exact Or.inl rfl
      · rcases hlo : lookupW st.world idDel with _ | oi
        · rw [seqM_err (serviceDelete_eval_none hlo)]
          exact Or.inl rfl
        · rw [seqM_ok (serviceDelete_eval_some hlo)]
          rcases hmv : moveFile e.1 d (some p) (some (cleanOf e.2.name))
              (some e.2.mimeType) ({ st with
                world := deleteW st.world idDel
                trace := st.trace ++ [Op.deleteOp idDel] } : St) with ⟨r1, st1⟩
          by_cases hkid : k = idDel
          · have hdel : lookupW (({ st with
                world := deleteW st.world idDel
                trace := st.trace ++ [Op.deleteOp idDel] } : St)).world k = none := by
              show lookupW (deleteW st.world idDel) k = none
              rw [lookupW_deleteW, if_pos hkid]
            have hmw := moveFile_none_mono e.1 d (some p) (some (cleanOf e.2.name))
              (some e.2.mimeType) ({ st with
                world := deleteW st.world idDel
                trace := st.trace ++ [Op.deleteOp idDel] } : St) k hdel
            rw [hmv] at hmw
            cases r1 with
            | error er => rw [seqM_err hmv]; exact Or.inr hmw
            | ok v => rw [seqM_ok hmv]; exact Or.inr hmw
          · have hdel : lookupW (({ st with
                world := deleteW st.world idDel
                trace := st.trace ++ [Op.deleteOp idDel] } : St)).world k =
                lookupW st.world k := by
              show lookupW (deleteW st.world idDel) k = lookupW st.world k
              rw [lookupW_deleteW, if_neg hkid]
            have hmw := moveFile_world_keys e.1 d (some p) (some (cleanOf e.2.name))
              (some e.2.mimeType) ({ st with
                world := deleteW st.world idDel
                trace := st.trace ++ [Op.deleteOp idDel] } : St) k hk
            rw [hmv] at hmw
            cases r1 with
            | error er => rw [seqM_err hmv]; exact Or.inl (hmw.trans hdel)
            | ok v => rw [seqM_ok hmv]; exact Or.inl (hmw.trans hdel)
  · exact Or.inl rfl

theorem cleanupLoop_untouched (p d : String) (m : List (String × String))
    (L : List (String × FileInfo)) (st : St) (k : String)
    (hkL : ∀ e ∈ L, k ≠ (e : String × FileInfo).1) :
    lookupW ((cleanupLoop p d m L st).2).world k = lookupW st.world k ∨
      lookupW ((cleanupLoop p d m L st).2).world k = none := by
  induction L generalizing st with
  | nil => exact Or.inl rfl
  | cons f L' ih =>
    rw [cleanupLoop_cons_eval]
    rcases hse : stepEntry p d m f st with ⟨r1, st1⟩
    have hstep := stepEntry_untouched p d m f st k (hkL f (List.mem_cons_self f L'))
    rw [hse] at hstep
    cases r1 with
    | error er => rw [seqM_err hse]; exact hstep
    | ok u =>
      rw [seqM_ok hse]
      rcases hstep with hs | hs
      · rcases ih st1 (fun e hef => hkL e (List.mem_cons_of_mem f hef)) with hl | hl
        · exact Or.inl (hl.trans hs)
        · exact Or.inr hl
      · exact Or.inr (cleanupLoop_none_mono p d m L' st1 k hs)

theorem cleanupLoop_trig_none (p d : String) (m : List (String × String))
    (L : List (String × FileInfo)) (st st' : St) (e : String × FileInfo) (o : String)
    (he : cleanupLoop p d m L st = (Except.ok (), st'))
    (hmem : e ∈ L)
    (hsnap : lookupW st.fileInfo e.1 = none)
    (hhit : mLookup m (cleanOf e.2.name) = some o)
    (hne : o ≠ e.1) :
    lookupW st'.world o = none := by
  induction L generalizing st with
  | nil => simp at hmem
  | cons f L' ih =>
    rw [cleanupLoop_cons_eval] at he
    rcases hse : stepEntry p d m f st with ⟨r1, st1⟩
    cases r1 with
    | error er => rw [seqM_err hse] at he; simp at he
    | ok u =>
      rw [seqM_ok hse] at he
      rcases List.mem_cons.1 hmem with rfl | hmem'
      · have htrig := stepEntry_trig_ok hsnap hhit hne hse
        have := cleanupLoop_none_mono p d m L' st1 o htrig.2
        rw [he] at this
        exact this
      · have hfi : st1.fileInfo = st.fileInfo := by
          have := stepEntry_fileInfo p d m f st
          rw [hse] at this
          exact this
        exact ih st1 he hmem' (by rw [hfi]; exact hsnap)

theorem cleanupLoop_trig_pres (p d : String) (m : List (String × String))
    (L : List (String × FileInfo)) (st st' : St) (e : String × FileInfo) (o : String)
    (he : cleanupLoop p d m L st = (Except.ok (), st'))
    (hmem : e ∈ L)
    (hsnap : lookupW st.fileInfo e.1 = none)
    (hhit : mLookup m (cleanOf e.2.name) = some o)
    (hne : o ≠ e.1)
    (hnone : lookupW st.world o = none) : False := by
  induction L generalizing st with
  | nil => simp at hmem
  | cons f L' ih =>
    rw [cleanupLoop_cons_eval] at he
    rcases hse : stepEntry p d m f st with ⟨r1, st1⟩
    cases r1 with
    | error er => rw [seqM_err hse] at he; simp at he
    | ok u =>
      rw [seqM_ok hse] at he
      rcases List.mem_cons.1 hmem with rfl | hmem'
      · exact (stepEntry_trig_ok hsnap hhit hne hse).1 hnone
      · have hfi : st1.fileInfo = st.fileInfo := by
          have := stepEntry_fileInfo p d m f st
          rw [hse] at this
          exact this
        have hn1 : lookupW st1.world o = none := by
          have := stepEntry_none_mono p d m f st o hnone
          rw [hse] at this
          exact this
        exact ih st1 he hmem' (by rw [hfi]; exact hsnap) hn1

/-- Two distinct strays whose clean names both map to the same
destination id cannot both be processed in one successful pass: the
second delete of that id would fail. -/
theorem cleanupLoop_trig_unique (p d : String) (m : List (String × String))
    (L : List (String × FileInfo)) (st st' : St)
    (e1 e2 : String × FileInfo) (o : String)
    (he : cleanupLoop p d m L st = (Except.ok (), st'))
    (h1 : e1 ∈ L) (h2 : e2 ∈ L) (hne12 : e1.1 ≠ e2.1)
    (hsnap1 : lookupW st.fileInfo e1.1 = none)
    (hsnap2 : lookupW st.fileInfo e2.1 = none)
    (hhit1 : mLookup m (cleanOf e1.2.name) = some o)
    (hhit2 : mLookup m (cleanOf e2.2.name) = some o)
    (hne1 : o ≠ e1.1) (hne2 : o ≠ e2.1) : False := by
  have key : ∀ (A B : List (String × FileInfo)) (f e' : String × FileInfo) (stx : St),
      cleanupLoop p d m (A ++ f :: B) stx = (Except.ok (), st') →
      e' ∈ B →
      lookupW stx.fileInfo f.1 = none →
      lookupW stx.fileInfo e'.1 = none →
      mLookup m (cleanOf f.2.name) = some o →
      mLookup m (cleanOf e'.2.name) = some o →
      o ≠ f.1 → o ≠ e'.1 → False := by
    intro A B f e' stx hrun hmem hsf hse' hhf hhe' hof hoe
    rw [cleanupLoop_append] at hrun
    rcases hA : cleanupLoop p d m A stx with ⟨rA, stA⟩
    rw [hA] at hrun
    cases rA with
    | error er => simp at hrun
    | ok u =>
      have hfiA : stA.fileInfo = stx.fileInfo := by
        have := cleanupLoop_fileInfo p d m A stx
        rw [hA] at this
        exact this
      change cleanupLoop p d m (f :: B) stA = (Except.ok (), st') at hrun
      rw [cleanupLoop_cons_eval] at hrun
      rcases hsf2 : stepEntry p d m f stA with ⟨r1, st1⟩
      cases r1 with
      | error er => rw [seqM_err hsf2] at hrun; simp at hrun
      | ok u2 =>
        rw [seqM_ok hsf2] at hrun
        have htrig := stepEntry_trig_ok (by rw [hfiA]; exact hsf) hhf hof hsf2
        have hfi1 : st1.fileInfo = stx.fileInfo := by
          have := stepEntry_fileInfo p d m f stA
          rw [hsf2] at this
          rw [this, hfiA]
        exact cleanupLoop_trig_pres p d m B st1 st' e' o hrun hmem
          (by rw [hfi1]; exact hse') hhe' hoe htrig.2
  rcases List.append_of_mem h1 with ⟨A1, B1, hL⟩
  subst hL
  rcases List.mem_append.1 h2 with h2A | h2B
  · rcases List.append_of_mem h2A with ⟨A2, B2, hA1⟩
    subst hA1
    have hre : (A2 ++ e2 :: B2) ++ e1 :: B1 = A2 ++ e2 :: (B2 ++ e1 :: B1) := by simp
    rw [hre] at he
    exact key A2 (B2 ++ e1 :: B1) e2 e1 st he (by simp) hsnap2 hsnap1 hhit2 hhit1 hne2 hne1
  · rcases List.mem_cons.1 h2B with h2eq | h2B2
    · exact hne12 (by rw [h2eq])
    · exact key A1 B1 e1 e2 st he h2B2 hsnap1 hsnap2 hhit1 hhit2 hne1 hne2

/-- Outcome of one successful reconciliation pass for each listed entry:
snapshot entries are untouched; strays end up under the destination,
renamed to their clean name (or left under their remote name when the
clean name is empty). -/
theorem cleanupLoop_out (p d : String) (m : List (String × String))
    (L : List (String × FileInfo)) (st st' : St)
    (hp : p ≠ "")
    (hnd : (idsW st.world).Nodup)
    (hmime : ∀ q ∈ st.world, (q : String × FileInfo).2.mimeType ≠ "")
    (hacc : ∀ e ∈ L, lookupW st.world (e : String × FileInfo).1 = some e.2)
    (hdisj : ∀ e ∈ L, ∀ s, mLookup m s ≠ some (e : String × FileInfo).1)
    (hLnd : (L.map Prod.fst).Nodup)
    (he : cleanupLoop p d m L st = (Except.ok (), st')) :
    ∀ e ∈ L, lookupW st'.world (e : String × FileInfo).1 =
      if lookupW st.fileInfo (e : String × FileInfo).1 = none
      then some (FileInfo.mk (mvName e.2) e.2.mimeType d)
      else some e.2 := by
  induction L generalizing st with
  | nil => intro e hmem; simp at hmem
  | cons f L' ih =>
    rw [cleanupLoop_cons_eval] at he
    have hndL : f.1 ∉ L'.map Prod.fst ∧ (L'.map Prod.fst).Nodup := by
      simpa [List.nodup_cons] using hLnd
    have hfmem : (f.1, f.2) ∈ st.world :=
      lookupW_eq_some_mem (hacc f (List.mem_cons_self f L'))
    have hfmime : f.2.mimeType ≠ "" := hmime (f.1, f.2) hfmem
    rcases hsnap : lookupW st.fileInfo f.1 with _ | i
    · rcases hml : mLookup m (cleanOf f.2.name) with _ | o
      · -- stray, no collision: plain move
        rcases stepEntry_move_spec hsnap hml (hacc f (List.mem_cons_self f L')) hp hfmime
          with ⟨tr, hstep, _, _⟩
        rw [seqM_ok hstep] at he
        intro e hmem
        rcases List.mem_cons.1 hmem with rfl | hmem'
        · rw [if_pos hsnap]
          have hpres := cleanupLoop_frame_keys p d m L'
            ({ st with
              world := updateW st.world e.1 d (mvName e.2)
              trace := st.trace ++ tr } : St) e.1
            (fun q hq hh => hndL.1 (by rw [hh]; exact List.mem_map.2 ⟨q, hq, rfl⟩))
            (hdisj e (List.mem_cons_self e L'))
          rw [he] at hpres
          rw [hpres]
          show lookupW (updateW st.world e.1 d (mvName e.2)) e.1 = _
          rw [lookupW_updateW, if_pos rfl, hacc e (List.mem_cons_self e L')]
          rfl
        · have hout := ih ({ st with
              world := updateW st.world f.1 d (mvName f.2)
              trace := st.trace ++ tr } : St)
            (nodup_updateW _ _ _ hnd)
            (mimeAll_updateW _ _ _ hmime)
            (fun q hq => by
              show lookupW (updateW st.world f.1 d (mvName f.2)) q.1 = some q.2
              rw [lookupW_updateW, if_neg (fun hh =>
                hndL.1 (by rw [← hh]; exact List.mem_map.2 ⟨q, hq, rfl⟩))]
              exact hacc q (List.mem_cons_of_mem f hq))
            (fun q hq => hdisj q (List.mem_cons_of_mem f hq))
            hndL.2 he e hmem'
          exact hout
      · -- stray with collision: delete then move
        have hneo : o ≠ f.1 := fun hh => hdisj f (List.mem_cons_self f L') _ (hh ▸ hml)
        rcases hlo : lookupW st.world o with _ | oi
        · rw [seqM_err (stepEntry_del_fail hsnap hml hneo hlo)] at he
          simp at he
        · rcases stepEntry_delmove_spec hsnap hml hneo (by rw [hlo]; simp)
            (hacc f (List.mem_cons_self f L')) hp hfmime with ⟨tr, hstep, _, _⟩
          rw [seqM_ok hstep] at he
          intro e hmem
          rcases List.mem_cons.1 hmem with rfl | hmem'
          · rw [if_pos hsnap]
            have hpres := cleanupLoop_frame_keys p d m L'
              ({ st with
                world := updateW (deleteW st.world o) e.1 d (mvName e.2)
                trace := st.trace ++ (Op.deleteOp o :: tr) } : St) e.1
              (fun q hq hh => hndL.1 (by rw [hh]; exact List.mem_map.2 ⟨q, hq, rfl⟩))
              (hdisj e (List.mem_cons_self e L'))
            rw [he] at hpres
            rw [hpres]
            show lookupW (updateW (deleteW st.world o) e.1 d (mvName e.2)) e.1 = _
            rw [lookupW_updateW, if_pos rfl, lookupW_deleteW,
              if_neg (fun hh => hneo hh.symm), hacc e (List.mem_cons_self e L')]
            rfl
          · have hout := ih ({ st with
                world := updateW (deleteW st.world o) f.1 d (mvName f.2)
                trace := st.trace ++ (Op.deleteOp o :: tr) } : St)
              (nodup_updateW _ _ _ (nodup_deleteW _ hnd))
              (mimeAll_updateW _ _ _ (mimeAll_deleteW _ hmime))
              (fun q hq => by
                show lookupW (updateW (deleteW st.world o) f.1 d (mvName f.2)) q.1 = some q.2
                rw [lookupW_updateW, if_neg (fun hh =>
                  hndL.1 (by rw [← hh]; exact List.mem_map.2 ⟨q, hq, rfl⟩)), lookupW_deleteW,
                  if_neg (fun hh => hdisj q (List.mem_cons_of_mem f hq) _
                    (by rw [hh]; exact hml))]
                exact hacc q (List.mem_cons_of_mem f hq))
              (fun q hq => hdisj q (List.mem_cons_of_mem f hq))
              hndL.2 he e hmem'
            exact hout
    · -- snapshot entry: skipped
      rw [seqM_ok (stepEntry_skip hsnap)] at he
      intro e hmem
      rcases List.mem_cons.1 hmem with rfl | hmem'
      · rw [if_neg (by rw [hsnap]; simp)]
        have hpres := cleanupLoop_frame_keys p d m L' st e.1
          (fun q hq hh => hndL.1 (by rw [hh]; exact List.mem_map.2 ⟨q, hq, rfl⟩))
          (hdisj e (List.mem_cons_self e L'))
        rw [he] at hpres
        rw [hpres]
        exact hacc e (List.mem_cons_self e L')
      · exact ih st hnd hmime
          (fun q hq => hacc q (List.mem_cons_of_mem f hq))
          (fun q hq => hdisj q (List.mem_cons_of_mem f hq))
          hndL.2 he e hmem'

theorem cleanOf_eq_empty {n : String} (h : cleanOf n = "") : n = "" ∨ n = deco := by
  rw [cleanOf] at h
  by_cases hs : strStarts n deco = true
  · rw [if_pos hs] at h
    right
    have hdrop : n.data.drop deco.data.length = [] := congrArg String.data h
    have htake : n.data.take deco.data.length = deco.data := by
      have := hs
      rw [strStarts] at this
      exact beq_iff_eq.1 this
    apply String.ext
    rw [← List.take_append_drop deco.data.length n.data, htake, hdrop, List.append_nil]
  · rw [if_neg hs] at h
    left
    exact h

/-- Core of the reconciliation-promotion property, over the loop with
listings freshly derived from the current remote world. -/
theorem cleanup_promotion_core (p d X o c : String) (oi ci : FileInfo) (st st' : St)
    (hnd : (idsW st.world).Nodup)
    (hmw : ∀ q ∈ st.world, (q : String × FileInfo).2.mimeType ≠ "")
    (hpd : p ≠ d) (hp : p ≠ "")
    (hc : (c, ci) ∈ childrenW st.world p)
    (hstray : lookupW st.fileInfo c = none)
    (hX : cleanOf ci.name = X)
    (hX1 : X ≠ "") (hX2 : X ≠ deco)
    (hdest : (childrenW st.world d).filter (fun q => q.2.name == X) = [(o, oi)])
    (hoc : o ≠ c)
    (hrun : cleanupFromListings p d (childrenW st.world p) (childrenW st.world d) st =
      (Except.ok (), st')) :
    lookupW st'.world o = none ∧
    lookupW st'.world c = some (FileInfo.mk X ci.mimeType d) ∧
    (∀ z : String, (∃ zi, lookupW st'.world z = some zi ∧ zi.parent = d ∧ zi.name = X)
      ↔ z = c) := by
  rw [cleanupFromListings] at hrun
  have hmX : mLookup (buildNameMap (childrenW st.world d)) X = some o :=
    mLookup_buildNameMap_singleton hdest
  have hacc : ∀ e ∈ childrenW st.world p,
      lookupW st.world (e : String × FileInfo).1 = some e.2 := by
    intro e he
    have := (childrenW_mem.1 he).1
    exact mem_lookupW_nodup hnd (by rcases e with ⟨a, b⟩; exact this)
  have hdisj : ∀ e ∈ childrenW st.world p, ∀ s,
      mLookup (buildNameMap (childrenW st.world d)) s ≠ some (e : String × FileInfo).1 := by
    intro e he s hs
    rcases mLookup_buildNameMap_mem hs with ⟨i, hwi, hni⟩
    have hid : i.parent = d := (childrenW_mem.1 hwi).2
    have hii : (e.1, i) ∈ st.world := (childrenW_mem.1 hwi).1
    have hee : (e.1, e.2) ∈ st.world := by
      have := (childrenW_mem.1 he).1
      rcases e with ⟨a, b⟩
      exact this
    have h1 := mem_lookupW_nodup hnd hii
    have h2 := mem_lookupW_nodup hnd hee
    rw [h1] at h2
    have : i = e.2 := by injection h2
    rw [this] at hid
    exact hpd (((childrenW_mem.1 he).2).symm.trans hid)
  have hLnd : ((childrenW st.world p).map Prod.fst).Nodup :=
    (List.Sublist.map Prod.fst (List.filter_sublist st.world)).nodup hnd
  have hcL : (c, ci) ∈ childrenW st.world p := hc
  have hhitc : mLookup (buildNameMap (childrenW st.world d))
      (cleanOf ((c, ci) : String × FileInfo).2.name) = some o := by
    show mLookup _ (cleanOf ci.name) = some o
    rw [hX]
    exact hmX
  have hconc1 : lookupW st'.world o = none :=
    cleanupLoop_trig_none p d _ _ st st' (c, ci) o hrun hcL hstray hhitc hoc
  have hout := cleanupLoop_out p d _ _ st st' hp hnd hmw hacc hdisj hLnd hrun
  have hconc2 : lookupW st'.world c = some (FileInfo.mk X ci.mimeType d) := by
    have := hout (c, ci) hcL
    rw [if_pos hstray] at this
    rw [this]
    have hmv : mvName ci = X := by
      rw [mvName, hX, if_neg hX1]
    rw [show mvName ((c, ci) : String × FileInfo).2 = mvName ci from rfl] at this ⊢
    rw [hmv]
  refine ⟨hconc1, hconc2, ?_⟩
  intro z
  constructor
  · rintro ⟨zi, hz, hzp, hzn⟩
    by_cases hzL : z ∈ (childrenW st.world p).map Prod.fst
    · rcases List.mem_map.1 hzL with ⟨e, heL, hez⟩
      have houte := hout e heL
      rcases hsnap2 : lookupW st.fileInfo e.1 with _ | i
      · rw [if_pos hsnap2] at houte
        rw [hez] at houte
        rw [houte] at hz
        have hzi : zi = FileInfo.mk (mvName e.2) e.2.mimeType d := by
          injection hz.symm
        have hname : mvName e.2 = X := by rw [← hzn, hzi]
        by_cases hce : cleanOf e.2.name = ""
        · rw [mvName, if_pos hce] at hname
          rcases cleanOf_eq_empty hce with h0 | h0
          · rw [h0] at hname
            exact absurd hname.symm hX1
          · rw [h0] at hname
            exact absurd hname.symm hX2
        · rw [mvName, if_neg hce] at hname
          by_contra hzc
          have hhite : mLookup (buildNameMap (childrenW st.world d))
              (cleanOf e.2.name) = some o := by
            rw [hname]
            exact hmX
          have hoe : o ≠ e.1 := by
            intro hh
            exact hdisj e heL (cleanOf e.2.name) (by rw [← hh]; exact hhite)
          exact cleanupLoop_trig_unique p d _ _ st st' (c, ci) e o hrun hcL heL
            (by show c ≠ e.1; rw [hez]; exact fun hh => hzc hh.symm)
            hstray hsnap2 hhitc hhite hoc hoe
      · rw [if_neg (by rw [hsnap2]; simp)] at houte
        rw [hez] at houte
        rw [houte] at hz
        have hzi : zi = e.2 := by injection hz.symm
        have hpar : e.2.parent = p := (childrenW_mem.1 heL).2
        rw [hzi, hpar] at hzp
        exact absurd hzp hpd
    · have hunt := cleanupLoop_untouched p d (buildNameMap (childrenW st.world d))
        (childrenW st.world p) st z
        (fun e heL hh => hzL (by rw [hh]; exact List.mem_map.2 ⟨e, heL, rfl⟩))
      rw [hrun] at hunt
      rcases hunt with hu | hu
      · have hzw : lookupW st.world z = some zi := by
          rw [← hu]
          exact hz
        have hmem : (z, zi) ∈ childrenW st.world d :=
          childrenW_mem.2 ⟨lookupW_eq_some_mem hzw, hzp⟩
        have hfil : (z, zi) ∈ (childrenW st.world d).filter (fun q => q.2.name == X) :=
          List.mem_filter.2 ⟨hmem, by simp [hzn]⟩
        rw [hdest] at hfil
        have hzo : z = o := congrArg Prod.fst (List.mem_singleton.1 hfil)
        rw [hzo] at hz
        rw [hconc1] at hz
        exact absurd hz (by simp)
      · have hzn2 : lookupW st'.world z = none := hu
        rw [hzn2] at hz
        exact absurd hz (by simp)
  · rintro rfl
    exact ⟨FileInfo.mk X ci.mimeType d, hconc2, rfl, rfl⟩

theorem cleanupFiles_to_core {p d : String} {st st' : St}
    (hrun : cleanupFiles p d st = (Except.ok (), st')) :
    cleanupFromListings p d (childrenW st.world p) (childrenW st.world d)
      { st with trace := st.trace ++ [Op.cleanupCall p d, Op.listOp p, Op.listOp d] } =
      (Except.ok (), st') := by
  rw [cleanupFiles, seqM_ok (markCleanup_eval p d st),
    seqM_ok (serviceList_eval p _), seqM_ok (serviceList_eval d _)] at hrun
  have : cleanupFromListings p d (childrenW st.world p) (childrenW st.world d)
      { st with
        trace := ((st.trace ++ [Op.cleanupCall p d]) ++ [Op.listOp p]) ++ [Op.listOp d] } =
      (Except.ok (), st') := hrun
  rw [show ((st.trace ++ [Op.cleanupCall p d]) ++ [Op.listOp p]) ++ [Op.listOp d] =
    st.trace ++ [Op.cleanupCall p d, Op.listOp p, Op.listOp d] by simp] at this
  exact this

theorem cleanOf_deco_append (X : String) : cleanOf (deco ++ X) = X := by
  have hdata : (deco ++ X).data = deco.data ++ X.data := String.data_append deco X
  rw [cleanOf, if_pos ?hs]
  case hs =>
    rw [strStarts, hdata, List.take_left]
    simp
  rw [strDropN, hdata, List.drop_left]

/-- **C4** (amended).  If, when `_cleanup_files(s, d)` runs against a
duplicate-free remote world (nonempty ids and mime-types), the fresh
listing of `s` contains a node `c` absent from the snapshot named
`"Copy of " ++ X` with `X` neither empty nor the literal decoration
marker, and the fresh listing of `d` contains exactly one entry named
`X` with a different id `o`, then after `_cleanup_files` returns
normally: `o` has been deleted, `c` has been moved into `d` and renamed
to `X`, and `c` is the unique node under `d` named `X`. -/
theorem cleanup_promotion_amended (p d X o c : String) (oi ci : FileInfo) (st st' : St)
    (hnd : (idsW st.world).Nodup)
    (hmw : ∀ q ∈ st.world, (q : String × FileInfo).2.mimeType ≠ "")
    (hpd : p ≠ d) (hp : p ≠ "")
    (hc : (c, ci) ∈ childrenW st.world p)
    (hstray : lookupW st.fileInfo c = none)
    (hname : ci.name = deco ++ X)
    (hX1 : X ≠ "") (hX2 : X ≠ deco)
    (hdest : (childrenW st.world d).filter (fun q => q.2.name == X) = [(o, oi)])
    (hoc : o ≠ c)
    (hrun : cleanupFiles p d st = (Except.ok (), st')) :
    lookupW st'.world o = none ∧
    lookupW st'.world c = some (FileInfo.mk X ci.mimeType d) ∧
    (∀ z : String, (∃ zi, lookupW st'.world z = some zi ∧ zi.parent = d ∧ zi.name = X)
      ↔ z = c) :=
  cleanup_promotion_core p d X o c oi ci
    { st with trace := st.trace ++ [Op.cleanupCall p d, Op.listOp p, Op.listOp d] } st'
    hnd hmw hpd hp hc hstray (by rw [hname]; exact cleanOf_deco_append X) hX1 hX2
    hdest hoc (cleanupFiles_to_core hrun)

def stC4x : St :=
  { fileInfo := []
    world := [("c", FileInfo.mk "Copy of Copy of " "doc" "s"),
              ("z", FileInfo.mk "Copy of " "doc" "s"),
              ("o", FileInfo.mk "Copy of " "doc" "d")]
    nextId := 0, copied := [], folders := [], trace := [] }

set_option maxHeartbeats 2000000 in
/-- **C4** (counterexample to the claim as stated).  With `X` equal to
the decoration marker `"Copy of "` itself, all hypotheses of the claim
hold: the fresh listing of `s` holds the stray `c` named
`"Copy of " ++ X` (absent from the snapshot), and `d` holds exactly one
entry named `X` under the distinct id `o`.  The pass returns normally,
yet two entries named `X` (ids `c` and `z`) end up under `d`, because
the second stray `z`, named exactly `"Copy of "`, has an empty clean
name, so its move falls into the metadata-refetch branch and keeps the
name `"Copy of "` — so "exactly one entry named X exists under d"
fails. -/
theorem cleanup_promotion_cex :
    (cleanupFiles "s" "d" stC4x).1 = Except.ok () ∧
    (idsW stC4x.world).Nodup ∧
    (("c", FileInfo.mk "Copy of Copy of " "doc" "s") ∈ childrenW stC4x.world "s") ∧
    lookupW stC4x.fileInfo "c" = none ∧
    (FileInfo.mk "Copy of Copy of " "doc" "s").name = deco ++ "Copy of " ∧
    ((childrenW stC4x.world "d").filter (fun q => q.2.name == "Copy of ")) =
      [("o", FileInfo.mk "Copy of " "doc" "d")] ∧
    lookupW ((cleanupFiles "s" "d" stC4x).2).world "c" =
      some (FileInfo.mk "Copy of " "doc" "d") ∧
    lookupW ((cleanupFiles "s" "d" stC4x).2).world "z" =
      some (FileInfo.mk "Copy of " "doc" "d") ∧
    ((childrenW ((cleanupFiles "s" "d" stC4x).2).world "d").filter
      (fun q => q.2.name == "Copy of ")).length = 2 := by
  refine ⟨?_, ?_, ?_, ?_, ?_, ?_, ?_, ?_, ?_⟩ <;>
  simp [cleanupFiles, cleanupFromListings, cleanupLoop,
    stepEntry, serviceList, serviceGet, serviceDelete, serviceUpdate,
    seqM, pureM, throwM, readSt, markCleanup,
    lookupW, childrenW, deleteW, updateW, buildNameMap, mLookup, cleanOf, moveFile,
    strStarts, strDropN, truthy, mvName,
    idsW, stC4x, deco, List.find?, List.filter]

def stC4w : St :=
  { fileInfo := []
    world := [("c", FileInfo.mk "Copy of A" "doc" "s"),
              ("o", FileInfo.mk "A" "doc" "d")]
    nextId := 0, copied := [], folders := [], trace := [] }

def stC4wFinal : St :=
  { fileInfo := []
    world := [("c", FileInfo.mk "A" "doc" "d")]
    nextId := 0, copied := [], folders := []
    trace := [Op.cleanupCall "s" "d", Op.listOp "s", Op.listOp "d",
              Op.deleteOp "o", Op.updateOp "c" "d" "s" "A"] }

set_option maxHeartbeats 2000000 in
theorem cleanup_promotion_amended_witness :
    lookupW stC4wFinal.world "o" = none ∧
    lookupW stC4wFinal.world "c" = some (FileInfo.mk "A" "doc" "d") ∧
    ((∃ zi, lookupW stC4wFinal.world "o" = some zi ∧ zi.parent = "d" ∧ zi.name = "A")
      ↔ ("o" : String) = "c") := by
  have happ := cleanup_promotion_amended "s" "d" "A" "o" "c"
    (FileInfo.mk "A" "doc" "d") (FileInfo.mk "Copy of A" "doc" "s") stC4w stC4wFinal
    (by decide)
    (by decide)
    (by decide) (by decide)
    (by decide)
    (by decide)
    (by decide)
    (by decide) (by decide)
    (by decide)
    (by decide)
    (by simp [cleanupFiles, cleanupFromListings, cleanupLoop,
      stepEntry, serviceList, serviceGet, serviceDelete, serviceUpdate,
      seqM, pureM, throwM, readSt, markCleanup,
      lookupW, childrenW, deleteW, updateW, buildNameMap, mLookup, cleanOf, moveFile,
      strStarts, strDropN, truthy, mvName,
      idsW, stC4w, stC4wFinal, deco, List.find?, List.filter])
  exact ⟨happ.1, happ.2.1, happ.2.2 "o"⟩

/-- **C7** (amended).  A stray whose clean name maps, in the destination
name map, to its own id is skipped as a complete no-op: its processing
issues neither a delete nor an update (nor any other request), and the
pass continues on the remaining entries from an unchanged state.  (A
delete of that id may still be issued later in the same pass while a
different stray with the same clean name is processed — see the
counterexample.) -/
theorem cleanup_self_id_amended (p d : String) (m : List (String × String))
    (e : String × FileInfo) (rest : List (String × FileInfo)) (st : St)
    (hsnap : lookupW st.fileInfo e.1 = none)
    (hself : mLookup m (cleanOf e.2.name) = some e.1) :
    stepEntry p d m e st = (Except.ok (), st) ∧
    cleanupLoop p d m (e :: rest) st = cleanupLoop p d m rest st := by
  refine ⟨stepEntry_self hsnap hself, ?_⟩
  rw [cleanupLoop_cons_eval, seqM_ok (stepEntry_self hsnap hself)]

def stC7x : St :=
  { fileInfo := []
    world := [("c1", FileInfo.mk "Copy of X" "doc" "s"),
              ("c2", FileInfo.mk "Copy of X" "doc" "s")]
    nextId := 0, copied := [], folders := [], trace := [] }

def cur7 : List (String × FileInfo) :=
  [("c1", FileInfo.mk "Copy of X" "doc" "s"), ("c2", FileInfo.mk "Copy of X" "doc" "s")]

def destL7 : List (String × FileInfo) := [("c1", FileInfo.mk "X" "doc" "d")]

set_option maxHeartbeats 1000000 in
/-- **C7** (counterexample to the claim as stated).  The stale
destination listing maps clean name `"X"` to the stray `c1` itself, so
`c1`'s own processing is skipped — yet the pass still issues a Delete
request for `c1`: the second stray `c2` has the same clean name, and
its collision lookup resolves to `c1`. -/
theorem cleanup_self_id_cex :
    mLookup (buildNameMap destL7) "X" = some "c1" ∧
    lookupW stC7x.fileInfo "c1" = none ∧
    cleanOf "Copy of X" = "X" ∧
    Op.deleteOp "c1" ∈ ((cleanupFromListings "s" "d" cur7 destL7 stC7x).2).trace := by
  refine ⟨?_, ?_, ?_, ?_⟩ <;>
  simp [cleanupFromListings, cleanupLoop,
    stepEntry, serviceGet, serviceDelete, serviceUpdate,
    seqM, pureM, throwM, readSt,
    lookupW, childrenW, deleteW, updateW, buildNameMap, mLookup, cleanOf, moveFile,
    strStarts, strDropN, truthy, mvName,
    stC7x, cur7, destL7, deco, List.find?, List.filter]

theorem cleanup_self_id_amended_witness :
    stepEntry "s" "d" [("X", "c1")] ("c1", FileInfo.mk "Copy of X" "doc" "s") stC7x =
      (Except.ok (), stC7x) ∧
    cleanupLoop "s" "d" [("X", "c1")]
        [("c1", FileInfo.mk "Copy of X" "doc" "s")] stC7x =
      cleanupLoop "s" "d" [("X", "c1")] [] stC7x :=
  cleanup_self_id_amended "s" "d" [("X", "c1")] ("c1", FileInfo.mk "Copy of X" "doc" "s")
    [] stC7x (by decide) (by decide)

def stC10x : St :=
  { fileInfo := []
    world := [("o1", FileInfo.mk "X" "doc" "d"),
              ("o2", FileInfo.mk "X" "doc" "d"),
              ("c", FileInfo.mk "Copy of X" "doc" "s")]
    nextId := 0, copied := [], folders := [], trace := [] }

set_option maxHeartbeats 2000000 in
/-- **C10**.  The destination name map keeps only the last-listed id per
name; each stray's processing issues at most one delete; concretely,
with two destination entries both named `X` and one stray
`"Copy of X"`, only the last-listed entry `o2` is deleted — `o1`
survives, and the destination ends the pass with two entries named
`X`. -/
theorem cleanup_name_map_last_wins :
    (∀ (L : List (String × FileInfo)) (n : String),
      mLookup (buildNameMap L) n =
        ((L.filter (fun e => e.2.name == n)).getLast?).map Prod.fst) ∧
    (∀ (p d : String) (m : List (String × String)) (e : String × FileInfo) (st : St),
      ((((stepEntry p d m e st).2).trace.drop st.trace.length).countP isDeleteOp) ≤ 1) ∧
    ((cleanupFiles "s" "d" stC10x).1 = Except.ok () ∧
      lookupW ((cleanupFiles "s" "d" stC10x).2).world "o1" =
        some (FileInfo.mk "X" "doc" "d") ∧
      lookupW ((cleanupFiles "s" "d" stC10x).2).world "o2" = none ∧
      ((childrenW ((cleanupFiles "s" "d" stC10x).2).world "d").filter
        (fun q => q.2.name == "X")).length = 2) := by
  refine ⟨mLookup_buildNameMap, ?_, ?_⟩
  · intro p d m e st
    rcases stepEntry_trace p d m e st with ⟨tr, htr, _, hcd⟩
    rw [htr, List.drop_left]
    exact hcd
  · refine ⟨?_, ?_, ?_, ?_⟩ <;>
    simp [cleanupFiles, cleanupFromListings, cleanupLoop,
      stepEntry, serviceList, serviceGet, serviceDelete, serviceUpdate,
      seqM, pureM, throwM, readSt, markCleanup,
      lookupW, childrenW, deleteW, updateW, buildNameMap, mLookup, cleanOf, moveFile,
      strStarts, strDropN, truthy, mvName,
      stC10x, deco, List.find?, List.filter]

theorem cleanupLoop_callFree (p d : String) (m : List (String × String))
    (L : List (String × FileInfo)) (st : St) :
    ∃ tr, ((cleanupLoop p d m L st).2).trace = st.trace ++ tr ∧
      ∀ o ∈ tr, callOf o = none := by
  induction L generalizing st with
  | nil => exact ⟨[], by simp [cleanupLoop, pureM], by simp⟩
  | cons f L' ih =>
    rw [cleanupLoop_cons_eval]
    rcases hse : stepEntry p d m f st with ⟨r1, st1⟩
    rcases stepEntry_trace p d m f st with ⟨t1, ht1, hc1, _⟩
    rw [hse] at ht1
    cases r1 with
    | error er =>
      rw [seqM_err hse]
      exact ⟨t1, ht1, hc1⟩
    | ok u =>
      rw [seqM_ok hse]
      rcases ih st1 with ⟨t2, ht2, hc2⟩
      refine ⟨t1 ++ t2, by rw [ht2, ht1, List.append_assoc], ?_⟩
      intro o ho
      rcases List.mem_append.1 ho with h | h
      · exact hc1 o h
      · exact hc2 o h

/-- One `_cleanup_files` call marks exactly one reconciliation entry at
its start and emits no further reconciliation marker. -/
theorem cleanupFiles_calls (p d : String) (st : St) {r : Except Err Unit} {st' : St}
    (he : cleanupFiles p d st = (r, st')) :
    ∃ tr, st'.trace = st.trace ++ (Op.cleanupCall p d :: tr) ∧
      ∀ o ∈ tr, callOf o = none := by
  rw [cleanupFiles, seqM_ok (markCleanup_eval p d st),
    seqM_ok (serviceList_eval p _), seqM_ok (serviceList_eval d _),
    cleanupFromListings] at he
  rcases cleanupLoop_callFree p d
    (buildNameMap (childrenW
      ({ st with trace := st.trace ++ [Op.cleanupCall p d] } : St).world d))
    (childrenW ({ st with trace := st.trace ++ [Op.cleanupCall p d] } : St).world p)
    ({ st with
      trace := ((st.trace ++ [Op.cleanupCall p d]) ++ [Op.listOp p]) ++ [Op.listOp d] } : St)
    with ⟨tr, htr, hcf⟩
  rw [he] at htr
  refine ⟨[Op.listOp p, Op.listOp d] ++ tr, ?_, ?_⟩
  · rw [htr]
    simp
  · intro o ho
    rcases List.mem_append.1 ho with h | h
    · rcases List.mem_cons.1 h with rfl | h2
      · rfl
      · rcases List.mem_singleton.1 h2 with rfl
        rfl
    · exact hcf o h

/-- The cleanup sweep performs exactly one `_cleanup_files` invocation
per recorded folder pair, in recorded order. -/
theorem runCleanupPairs_calls (l : List (String × String)) (st st' : St)
    (he : runCleanupPairs l st = (Except.ok (), st')) :
    ∃ tr, st'.trace = st.trace ++ tr ∧ tr.filterMap callOf = l := by
  induction l generalizing st with
  | nil =>
    have : st' = st := by
      rw [runCleanupPairs] at he
      simp [pureM] at he
      exact he.symm
    rw [this]
    exact ⟨[], by simp, by simp⟩
  | cons pr rest ih =>
    rcases pr with ⟨p, d⟩
    rw [runCleanupPairs] at he
    rcases hcf : cleanupFiles p d st with ⟨r1, st1⟩
    cases r1 with
    | error er => rw [seqM_err hcf] at he; simp at he
    | ok u =>
      rw [seqM_ok hcf] at he
      rcases cleanupFiles_calls p d st hcf with ⟨t1, ht1, hc1⟩
      rcases ih st1 he with ⟨t2, ht2, hc2⟩
      refine ⟨(Op.cleanupCall p d :: t1) ++ t2, ?_, ?_⟩
      · rw [ht2, ht1]
        simp
      · rw [List.filterMap_append]
        rw [show List.filterMap callOf (Op.cleanupCall p d :: t1) =
          (p, d) :: List.filterMap callOf t1 by simp [callOf]]
        rw [List.filterMap_eq_nil_iff.2 hc1, hc2]
        rfl

/-- **C1**.  `run` captures any exception from the traversal, sleeps the
global settle interval, invokes `_cleanup_files` once per folder pair
recorded up to that point (in recorded order), and then returns the
traversal's own outcome: the captured exception object re-raised
unchanged, or the traversal's result. -/
theorem run_sweeps_and_reraises (fuel : Nat) (root dest : String) (nm : Option String)
    (st st1 st3 : St) (r1 : Except Err (Option String))
    (h1 : copyItem fuel root dest nm st = (r1, st1))
    (h2 : runCleanup { st1 with trace := st1.trace ++ [Op.sleepOp 45] } =
      (Except.ok (), st3)) :
    run fuel root dest nm st = (r1, st3) ∧
    ∃ tr, st3.trace = st1.trace ++ [Op.sleepOp 45] ++ tr ∧
      tr.filterMap callOf = st1.folders := by
  constructor
  · rw [run]
    simp only [h1, h2]
    cases r1 with
    | error e => rfl
    | ok v => rfl
  · have h2' : runCleanupPairs st1.folders
        { st1 with trace := st1.trace ++ [Op.sleepOp 45] } = (Except.ok (), st3) := h2
    rcases runCleanupPairs_calls st1.folders _ st3 h2' with ⟨tr, htr, hcf⟩
    exact ⟨tr, htr, hcf⟩

def stC1w : St :=
  { fileInfo := [], world := [], nextId := 0, copied := [], folders := [], trace := [] }

theorem run_sweeps_and_reraises_witness :
    run 1 "r" "d" none stC1w =
      (Except.error (Err.keyError "r"),
       { stC1w with trace := [Op.sleepOp 1, Op.sleepOp 45] }) ∧
    ∃ tr, ({ stC1w with trace := [Op.sleepOp 1, Op.sleepOp 45] } : St).trace =
      ({ stC1w with trace := [Op.sleepOp 1] } : St).trace ++ [Op.sleepOp 45] ++ tr ∧
      tr.filterMap callOf = ({ stC1w with trace := [Op.sleepOp 1] } : St).folders :=
  run_sweeps_and_reraises 1 "r" "d" none stC1w
    { stC1w with trace := [Op.sleepOp 1] }
    { stC1w with trace := [Op.sleepOp 1, Op.sleepOp 45] }
    (Except.error (Err.keyError "r"))
    (copyItem_keyError 0 "d" none rfl)
    rfl

/-- **C2**.  Once `copy_item` has returned a concrete id for a
snapshot-resolvable id `x`, a second `copy_item` call on `x` (any
destination, any name) returns `None` and issues no remote request: the
only state change is the recorded pacing sleep. -/
theorem copyItem_idempotent (fuel1 fuel2 : Nat) (x d d' : String)
    (nm nm' : Option String) (st st1 : St) (i : String)
    (hx : lookupW st.fileInfo x ≠ none)
    (h1 : copyItem fuel1 x d nm st = (Except.ok (some i), st1)) :
    copyItem (fuel2 + 1) x d' nm' st1 =
      (Except.ok none, { st1 with trace := st1.trace ++ [Op.sleepOp 1] }) := by
  have hfi : st1.fileInfo = st.fileInfo :=
    (stable_elim (stable_copyItem fuel1 x d nm) h1).1
  rcases hlk : lookupW st1.fileInfo x with _ | info
  · rw [hfi] at hlk
    exact absurd hlk hx
  · exact copyItem_noop fuel2 d' nm' hlk (copyItem_copied_of_some h1)

def stW2 : St :=
  { fileInfo := [("a", FileInfo.mk "A" "doc" "r")]
    world := [("a", FileInfo.mk "A" "doc" "r")]
    nextId := 0, copied := [], folders := [], trace := [] }

def stW2post : St :=
  { fileInfo := [("a", FileInfo.mk "A" "doc" "r")]
    world := [("a", FileInfo.mk "A" "doc" "r"), ("g", FileInfo.mk "A" "doc" "dst")]
    nextId := 1, copied := ["a"], folders := []
    trace := [Op.sleepOp 1, Op.copyOp "a" "g", Op.updateOp "g" "dst" "r" "A",
              Op.cleanupCall "r" "dst", Op.listOp "r", Op.listOp "dst"] }

set_option maxHeartbeats 1000000 in
theorem copyItem_idempotent_witness :
    copyItem 1 "a" "dst2" none stW2post =
      (Except.ok none, { stW2post with trace := stW2post.trace ++ [Op.sleepOp 1] }) :=
  copyItem_idempotent 1 0 "a" "dst" "dst2" none none stW2 stW2post "g"
    (by decide)
    (by simp [copyItem, copyFile, moveFile, cleanupFiles, cleanupFromListings, cleanupLoop,
      stepEntry, serviceList, serviceGet, serviceDelete, serviceUpdate, serviceCreate,
      serviceClone, seqM, pureM, throwM, readSt, sleepM, markCleanup, addCopiedM,
      addFolderM, lookupW, childrenW, deleteW, updateW, buildNameMap, mLookup, cleanOf,
      strStarts, strDropN, truthy, mvName, prio, orderedChildren, copyListAux, addCopiedL,
      genId_zero, stW2, stW2post, FOLDER_TYPE, SPREADSHEET_TYPE, deco,
      List.find?, List.filter])

/-- **C6** (amended).  The copied-set guard fires only after `item_id`
is resolved in the snapshot: for an already-copied id present in the
snapshot `copy_item` returns `None` with no remote request, but for an
already-copied id absent from the snapshot it raises the lookup error
instead of returning `None`. -/
theorem copyItem_copied_guard_amended (fuel : Nat) (x d : String) (nm : Option String)
    (st : St) (hc : x ∈ st.copied) :
    copyItem (fuel + 1) x d nm st =
      ((match lookupW st.fileInfo x with
        | some _ => Except.ok none
        | none => Except.error (Err.keyError x)),
       { st with trace := st.trace ++ [Op.sleepOp 1] }) := by
  rcases hlk : lookupW st.fileInfo x with _ | info
  · exact copyItem_keyError fuel d nm hlk
  · exact copyItem_noop fuel d nm hlk hc

def stC6x : St :=
  { fileInfo := [], world := [], nextId := 0, copied := ["a"], folders := [], trace := [] }

/-- **C6** (counterexample to the claim as stated).  `"a"` is in the
copied set but absent from the snapshot; `copy_item` raises `KeyError`
instead of returning `None`, because the snapshot resolution happens
before the copied-set guard. -/
theorem copyItem_copied_guard_cex :
    ("a" ∈ stC6x.copied) ∧
    lookupW stC6x.fileInfo "a" = none ∧
    (copyItem 1 "a" "d" none stC6x).1 = Except.error (Err.keyError "a") := by
  refine ⟨by decide, rfl, ?_⟩
  rw [@copyItem_keyError stC6x "a" 0 "d" none rfl]

def stC6w : St :=
  { fileInfo := [("a", FileInfo.mk "A" "doc" "r")], world := [], nextId := 0
    copied := ["a"], folders := [], trace := [] }

theorem copyItem_copied_guard_amended_witness :
    copyItem 1 "a" "d" none stC6w =
      ((match lookupW stC6w.fileInfo "a" with
        | some _ => Except.ok none
        | none => Except.error (Err.keyError "a")),
       { stC6w with trace := stC6w.trace ++ [Op.sleepOp 1] }) :=
  copyItem_copied_guard_amended 0 "a" "d" none stC6w (by decide)

theorem prio_cases (mt : String) : prio mt = 1 ∨ prio mt = 0 ∨ prio mt = -1 := by
  rw [prio]
  split
  · exact Or.inl rfl
  · split
    · exact Or.inr (Or.inl rfl)
    · exact Or.inr (Or.inr rfl)

theorem filter_threeRev (P : Int → Bool) :
    (([(-1 : Int), 0, 1].filter P).reverse) = [(1 : Int), 0, -1].filter P := by
  cases h1 : P (-1) <;> cases h2 : P 0 <;> cases h3 : P 1 <;>
    simp [List.filter, h1, h2, h3]

theorem sorted_keys_desc (keys : List Int) (hnd : keys.Nodup)
    (hmem : ∀ x ∈ keys, x = 1 ∨ x = 0 ∨ x = -1) :
    (keys.insertionSort (fun a b => a ≤ b)).reverse =
      [(1 : Int), 0, -1].filter (fun pr => decide (pr ∈ keys)) := by
  have hperm1 : (keys.insertionSort (fun a b => a ≤ b)).Perm keys :=
    List.perm_insertionSort _ keys
  have hsorted : List.Sorted (fun a b => a ≤ b) (keys.insertionSort (fun a b => a ≤ b)) :=
    List.sorted_insertionSort _ keys
  have hTsub : ([(-1 : Int), 0, 1].filter (fun pr => decide (pr ∈ keys))).Sublist
      [(-1 : Int), 0, 1] := List.filter_sublist _
  have hTsorted : List.Sorted (fun a b : Int => a ≤ b)
      ([(-1 : Int), 0, 1].filter (fun pr => decide (pr ∈ keys))) :=
    List.Pairwise.sublist hTsub (by decide)
  have hTnd : ([(-1 : Int), 0, 1].filter (fun pr => decide (pr ∈ keys))).Nodup :=
    List.Nodup.filter _ (by decide)
  have hmemiff : ∀ x : Int,
      x ∈ [(-1 : Int), 0, 1].filter (fun pr => decide (pr ∈ keys)) ↔ x ∈ keys := by
    intro x
    rw [List.mem_filter]
    constructor
    · intro hx
      exact of_decide_eq_true hx.2
    · intro hx
      refine ⟨?_, by simp [hx]⟩
      rcases hmem x hx with h | h | h <;> simp [h]
  have hTperm : ([(-1 : Int), 0, 1].filter (fun pr => decide (pr ∈ keys))).Perm
      (keys.insertionSort (fun a b => a ≤ b)) :=
    ((List.perm_ext_iff_of_nodup hTnd hnd).2 hmemiff).trans hperm1.symm
  have heq := List.eq_of_perm_of_sorted hTperm hTsorted hsorted
  rw [← heq, filter_threeRev]

theorem not_mem_keys_filter_nil (children : List (String × FileInfo)) (pr : Int)
    (h : pr ∉ (children.map (fun e => prio e.2.mimeType)).dedup) :
    children.filter (fun e => prio e.2.mimeType == pr) = [] := by
  rcases hf : children.filter (fun e => prio e.2.mimeType == pr) with _ | ⟨a, t⟩
  · exact hf
  · exfalso
    have ha : a ∈ children.filter (fun e => prio e.2.mimeType == pr) := by
      rw [hf]; exact List.mem_cons_self a t
    have hmf := List.mem_filter.1 ha
    exact h (List.mem_dedup.2 (List.mem_map.2 ⟨a, hmf.1, by
      have := hmf.2
      simpa using this⟩))

set_option maxHeartbeats 1000000 in
/-- The flattened traversal order: all folder-priority children (in
snapshot order), then all spreadsheet-priority children, then
everything else. -/
theorem orderedChildren_eq (fi : List (String × FileInfo)) (item : String) :
    orderedChildren fi item =
      ((fi.filter (fun e => e.2.parent == item)).filter
        (fun e => prio e.2.mimeType == 1)).map Prod.fst ++
      ((fi.filter (fun e => e.2.parent == item)).filter
        (fun e => prio e.2.mimeType == 0)).map Prod.fst ++
      ((fi.filter (fun e => e.2.parent == item)).filter
        (fun e => prio e.2.mimeType == -1)).map Prod.fst := by
  have hkd := sorted_keys_desc
    ((List.map (fun e => prio e.2.mimeType) (fi.filter (fun e => e.2.parent == item))).dedup)
    (List.nodup_dedup _)
    (fun x hx => by
      rcases List.mem_map.1 (List.mem_dedup.1 hx) with ⟨e, _, he⟩
      rw [← he]
      exact prio_cases e.2.mimeType)
  simp only [orderedChildren]
  rw [hkd]
  by_cases hm1 : (1 : Int) ∈ (List.map (fun e => prio e.2.mimeType)
      (fi.filter (fun e => e.2.parent == item))).dedup <;>
  by_cases hm0 : (0 : Int) ∈ (List.map (fun e => prio e.2.mimeType)
      (fi.filter (fun e => e.2.parent == item))).dedup <;>
  by_cases hmm : (-1 : Int) ∈ (List.map (fun e => prio e.2.mimeType)
      (fi.filter (fun e => e.2.parent == item))).dedup <;>
  (try rw [not_mem_keys_filter_nil _ 1 hm1]) <;>
  (try rw [not_mem_keys_filter_nil _ 0 hm0]) <;>
  (try rw [not_mem_keys_filter_nil _ (-1) hmm]) <;>
  simp only [hm1, hm0, hmm, decide_True, decide_False, List.filter,
    List.flatMap_cons, List.flatMap_nil, List.map_nil,
    List.append_nil, List.nil_append, List.append_assoc]

def stC3 : St :=
  { fileInfo := [("f", FileInfo.mk "F" FOLDER_TYPE "r"),
                 ("a", FileInfo.mk "A" "doc" "f"),
                 ("b", FileInfo.mk "B" FOLDER_TYPE "f"),
                 ("c", FileInfo.mk "C" SPREADSHEET_TYPE "f"),
                 ("e", FileInfo.mk "E" "doc" "f")]
    world := [("f", FileInfo.mk "F" FOLDER_TYPE "r"),
              ("a", FileInfo.mk "A" "doc" "f"),
              ("b", FileInfo.mk "B" FOLDER_TYPE "f"),
              ("c", FileInfo.mk "C" SPREADSHEET_TYPE "f"),
              ("e", FileInfo.mk "E" "doc" "f")]
    nextId := 0
    copied := []
    folders := []
    trace := [] }

def trC3 : List Op := (copyItem 2 "f" "dst" none stC3).2.trace

set_option maxHeartbeats 4000000 in
theorem trC3_eq :
    trC3 =
    [Op.sleepOp 1, Op.createOp "dst" "F" "g",
     Op.sleepOp 1, Op.createOp "g" "B" "gx",
     Op.sleepOp 1, Op.copyOp "c" "gxx", Op.updateOp "gxx" "g" "f" "C", Op.sleepOp 30,
     Op.cleanupCall "f" "g", Op.listOp "f", Op.listOp "g",
     Op.sleepOp 1, Op.copyOp "a" "gxxx", Op.updateOp "gxxx" "g" "f" "A",
     Op.cleanupCall "f" "g", Op.listOp "f", Op.listOp "g",
     Op.sleepOp 1, Op.copyOp "e" "gxxxx", Op.updateOp "gxxxx" "g" "f" "E",
     Op.cleanupCall "f" "g", Op.listOp "f", Op.listOp "g"] := by
  simp [trC3, copyItem, copyFile, moveFile, cleanupFiles, cleanupFromListings, cleanupLoop,
    stepEntry, serviceList, serviceGet, serviceDelete, serviceUpdate, serviceCreate,
    serviceClone, seqM, pureM, throwM, readSt, sleepM, markCleanup, addCopiedM, addFolderM,
    lookupW, childrenW, deleteW, updateW, buildNameMap, mLookup, cleanOf,
    strStarts, strDropN, truthy, mvName, prio, orderedChildren, copyListAux, addCopiedL,
    genId_zero, genId_one, genId_two, genId_three, genId_four,
    List.insertionSort, List.orderedInsert,
    stC3, FOLDER_TYPE, SPREADSHEET_TYPE, deco, List.find?, List.filter]

/-- C3: copyItem on a folder groups the folder's snapshot children by
mime-type priority (folders highest, spreadsheets next, everything else
lowest) and processes whole groups in descending priority order; in the
concrete session stC3, whose folder "f" has children of types
{document, folder, spreadsheet, document}, the folder child's Create
request is issued before the spreadsheet child's Copy request, which is
issued before either plain-document child's Copy request. -/
theorem copy_priority_order :
    (∀ (fi : List (String × FileInfo)) (item : String),
      orderedChildren fi item =
        ((fi.filter (fun e => e.2.parent == item)).filter
          (fun e => prio e.2.mimeType == 1)).map Prod.fst ++
        ((fi.filter (fun e => e.2.parent == item)).filter
          (fun e => prio e.2.mimeType == 0)).map Prod.fst ++
        ((fi.filter (fun e => e.2.parent == item)).filter
          (fun e => prio e.2.mimeType == -1)).map Prod.fst) ∧
    trC3.findIdx (fun o => o == Op.createOp "g" "B" "gx") <
      trC3.findIdx (fun o => o == Op.copyOp "c" "gxx") ∧
    trC3.findIdx (fun o => o == Op.copyOp "c" "gxx") <
      trC3.findIdx (fun o => o == Op.copyOp "a" "gxxx") ∧
    trC3.findIdx (fun o => o == Op.copyOp "c" "gxx") <
      trC3.findIdx (fun o => o == Op.copyOp "e" "gxxxx") := by
  refine ⟨orderedChildren_eq, ?_, ?_, ?_⟩ <;> rw [trC3_eq] <;> decide

/-! ### Pagination: exhaustiveness of the snapshot build vs the one-page
cleanup listings (C5) -/

theorem lookupW_isSome_iff (w : List (String × FileInfo)) (k : String) :
    (lookupW w k).isSome = true ↔ k ∈ idsW w := by
  constructor
  · intro h
    rcases ho : lookupW w k with _ | i
    · rw [ho] at h
      simp at h
    · exact List.mem_map.2 ⟨(k, i), lookupW_eq_some_mem ho, rfl⟩
  · intro h
    rcases List.mem_map.1 h with ⟨e, he, hk⟩
    have h2 : (w.find? (fun e => e.1 == k)).isSome = true :=
      List.find?_isSome.2 ⟨e, he, by simp [hk]⟩
    rcases Option.isSome_iff_exists.1 h2 with ⟨v, hv⟩
    simp [lookupW, hv]

theorem idsW_upsert (acc : List (String × FileInfo)) (e : String × FileInfo) :
    idsW (upsert acc e) =
      if (lookupW acc e.1).isSome then idsW acc else idsW acc ++ [e.1] := by
  rw [upsert]
  split
  · simp only [idsW, List.map_map]
    refine List.map_congr_left ?_
    intro x _
    by_cases hx : x.1 == e.1
    · have hx' : x.1 = e.1 := by simpa using hx
      simp [Function.comp, hx, hx']
    · simp [Function.comp, hx]
  · simp [idsW]

theorem mem_idsW_upsert (acc : List (String × FileInfo)) (e : String × FileInfo)
    (k : String) : k ∈ idsW (upsert acc e) ↔ k ∈ idsW acc ∨ k = e.1 := by
  rw [idsW_upsert]
  by_cases hs : (lookupW acc e.1).isSome = true
  · rw [if_pos hs]
    constructor
    · exact Or.inl
    · rintro (h | hk)
      · exact h
      · rw [hk]
        exact (lookupW_isSome_iff acc e.1).1 hs
  · rw [if_neg hs]
    simp

theorem mem_idsW_mergePage (page : List (String × FileInfo)) :
    ∀ (acc : List (String × FileInfo)) (k : String),
      k ∈ idsW (mergePage acc page) ↔ k ∈ idsW acc ∨ k ∈ idsW page := by
  induction page with
  | nil => intro acc k; simp [mergePage, idsW]
  | cons e t ih =>
    intro acc k
    have h1 : mergePage acc (e :: t) = mergePage (upsert acc e) t := rfl
    rw [h1, ih, mem_idsW_upsert]
    simp only [idsW, List.map_cons, List.mem_cons]
    tauto

theorem getAllAux_mono (P : List (List (String × FileInfo))) :
    ∀ (f i : Nat) (acc : List (String × FileInfo)) (k : String),
      k ∈ idsW acc → k ∈ idsW (getAllAux P f i acc) := by
  intro f
  induction f with
  | zero => intro i acc k h; exact h
  | succ f ih =>
    intro i acc k h
    simp only [getAllAux]
    split
    · exact ih _ _ k ((mem_idsW_mergePage _ _ _).2 (Or.inl h))
    · exact (mem_idsW_mergePage _ _ _).2 (Or.inl h)

theorem getAllAux_covers (P : List (List (String × FileInfo))) :
    ∀ (f i : Nat) (acc : List (String × FileInfo)) (j : Nat) (k : String),
      i ≤ j → j < P.length → j - i < f → k ∈ idsW (pageAt P j) →
      k ∈ idsW (getAllAux P f i acc) := by
  intro f
  induction f with
  | zero => intro i acc j k _ _ hf _; omega
  | succ f ih =>
    intro i acc j k hij hj hf hk
    simp only [getAllAux]
    by_cases he : i = j
    · subst he
      have hcov : k ∈ idsW (mergePage acc (pageAt P i)) :=
        (mem_idsW_mergePage _ _ _).2 (Or.inr hk)
      split
      · exact getAllAux_mono P f (i + 1) _ k hcov
      · exact hcov
    · have hlt : i < j := lt_of_le_of_ne hij he
      have hstep : i + 1 < P.length := lt_of_le_of_lt hlt hj
      rw [if_pos hstep]
      exact ih (i + 1) _ j k hlt hj (by omega) hk

def Pcex5 : List (List (String × FileInfo)) :=
  [[("a", FileInfo.mk "A" "doc" "s")],
   [("z", FileInfo.mk "Copy of Z" "doc" "s")]]

/-- C5 (amended): the session-start snapshot build is exhaustive — it
keeps requesting pages while a next-page token comes back, so every id
on any provider page reaches the snapshot — but the fresh per-parent
listings taken inside cleanupFiles request a single page and discard
the next-page token, so they contain only page 0. -/
theorem listing_exhaustive_amended (P : List (List (String × FileInfo))) :
    (∀ (j : Nat) (k : String), j < P.length → k ∈ idsW (pageAt P j) →
      k ∈ idsW (getAllFileInfo P)) ∧
    cleanupPageListing P = pageAt P 0 :=
  ⟨fun j k hj hk =>
    getAllAux_covers P (P.length + 1) 0 [] j k (Nat.zero_le j) hj (by omega) hk,
   rfl⟩

theorem listing_exhaustive_amended_witness :
    "z" ∈ idsW (getAllFileInfo Pcex5) ∧ cleanupPageListing Pcex5 = pageAt Pcex5 0 :=
  ⟨(listing_exhaustive_amended Pcex5).1 1 "z" (by decide) (by decide),
   (listing_exhaustive_amended Pcex5).2⟩

/-- C5 counterexample: with a two-page provider, the one-page listing
used by cleanupFiles receives a next-page token but discards it, so an
id on the second page is missing from that listing even though the
snapshot build picks it up. -/
theorem listing_exhaustive_cex :
    (onePage Pcex5 none).2 = some 1 ∧
    "z" ∈ idsW (pageAt Pcex5 1) ∧
    "z" ∉ idsW (cleanupPageListing Pcex5) ∧
    "z" ∈ idsW (getAllFileInfo Pcex5) := by decide

/-! ### Session-state invariants (C8) and the moveFile fetch path (C9) -/

def stW8 : St :=
  { fileInfo := [("x", FileInfo.mk "X" "doc" "r")]
    world := [("x", FileInfo.mk "X" "doc" "r")]
    nextId := 0
    copied := []
    folders := []
    trace := [] }

/-- C8: across every operation of a session — copyItem, copyFile,
cleanupFiles, moveFile and the full run — the snapshot fileInfo is
never mutated, the copied set only grows, and every pair appended to
the folder mapping has a source id that was, at the moment of
insertion, present in the snapshot with the folder mime-type. -/
theorem session_state_invariants :
    (∀ (fuel : Nat) (item dest : String) (nm : Option String),
      Stable (copyItem fuel item dest nm)) ∧
    (∀ i dest : String, Stable (copyFile i dest)) ∧
    (∀ p d : String, Stable (cleanupFiles p d)) ∧
    (∀ (i dest : String) (cp n mt : Option String), Stable (moveFile i dest cp n mt)) ∧
    (∀ (fuel : Nat) (root dest : String) (nm : Option String),
      Stable (run fuel root dest nm)) :=
  ⟨stable_copyItem, stable_copyFile, stable_cleanupFiles, stable_moveFile, stable_run⟩

theorem session_state_invariants_witness :
    ((run 1 "x" "d" none stW8).2).fileInfo = stW8.fileInfo :=
  (session_state_invariants.2.2.2.2 1 "x" "d" none stW8).1

def stC9x : St :=
  { fileInfo := [("a", FileInfo.mk "AA" "doc" "pp")]
    world := [("a", FileInfo.mk "AA" "doc" "pp")]
    nextId := 0
    copied := []
    folders := []
    trace := [] }

/-- C9 (amended): moveFile issues the metadata Get before the Update
exactly when the truthiness test on (currentParentId, name, mimeType)
fails — that is, when at least one of them is absent or the empty
string; when all three are supplied non-empty, no Get is issued and
the supplied parent and name appear in the single Update request. -/
theorem move_file_fetch_amended (i dest : String) (cp n mt : Option String) (st : St) :
    if truthy cp && truthy n && truthy mt then
      (moveFile i dest cp n mt st).2.trace =
        st.trace ++ [Op.updateOp i dest (cp.getD "") (n.getD "")]
    else
      ∃ tr, (moveFile i dest cp n mt st).2.trace =
        st.trace ++ Op.getOp i :: tr := by
  by_cases ht : (truthy cp && truthy n && truthy mt) = true
  · rw [if_pos ht, moveFile, if_pos ht]
    rcases hlo : lookupW st.world i with _ | info
    · rw [serviceUpdate_eval_none _ _ _ hlo]
    · rw [serviceUpdate_eval_some _ _ _ hlo]
  · rw [if_neg ht, moveFile, if_neg ht]
    rcases hlo : lookupW st.world i with _ | info
    · rw [seqM_err (serviceGet_eval_none hlo)]
      exact ⟨[], by simp⟩
    · rw [seqM_ok (serviceGet_eval_some hlo)]
      rcases hlo2 : lookupW ({ st with trace := st.trace ++ [Op.getOp i] } : St).world i
        with _ | info2
      · rw [serviceUpdate_eval_none _ _ _ hlo2]
        exact ⟨[Op.updateOp i dest info.parent info.name], by simp⟩
      · rw [serviceUpdate_eval_some _ _ _ hlo2]
        exact ⟨[Op.updateOp i dest info.parent info.name], by simp⟩

/-- C9 counterexample: all three optional arguments are supplied, but
the name is the empty string, so the truthiness test fails and a
metadata Get is issued anyway — and the Update then carries the fetched
parent and name, not the supplied ones. -/
theorem move_file_fetch_cex :
    (some "" : Option String).isSome = true ∧
    (some "p" : Option String).isSome = true ∧
    (some "doc" : Option String).isSome = true ∧
    (moveFile "a" "d" (some "p") (some "") (some "doc") stC9x).2.trace =
      [Op.getOp "a", Op.updateOp "a" "d" "pp" "AA"] := by
  refine ⟨rfl, rfl, rfl, ?_⟩
  simp [moveFile, truthy, serviceGet, serviceUpdate, seqM, stC9x, lookupW,
    List.find?, updateW]
